import Mathlib

/-!
Verification development for the encyclopedai repository.

Python strings are modelled as `List Char`.  The Unicode normalisation
functions (`unicodedata.normalize` with the forms NFKC / NFKD / NFC) and the
combining-character predicate are external library facilities; they are
modelled as explicit function parameters, and the theorems assume only
properties of them that hold of the real Unicode functions (for example that
they fix ASCII slug characters).
-/

namespace EncyclopedAI

/-- Convert a Lean string literal to the `List Char` representation used by
the model. -/
def str (s : String) : List Char := s.data

/-- Characters for which Python's `str.isspace` returns `True` (and which the
`str.strip()` default and the regex class `\s` treat as whitespace). -/
def pyIsSpace (c : Char) : Bool :=
  c.toNat = 32 || c.toNat = 9 || c.toNat = 10 || c.toNat = 13 || c.toNat = 11 ||
  c.toNat = 12 || (28 ≤ c.toNat && c.toNat ≤ 31) || c.toNat = 133 ||
  c.toNat = 160 || c.toNat = 5760 || (8192 ≤ c.toNat && c.toNat ≤ 8202) ||
  c.toNat = 8232 || c.toNat = 8233 || c.toNat = 8239 || c.toNat = 8287 ||
  c.toNat = 12288

/-- Remove leading and trailing characters satisfying `p`, as Python's
`str.strip` family does. -/
def stripEnds (p : Char → Bool) (l : List Char) : List Char :=
  ((l.dropWhile p).reverse.dropWhile p).reverse

/-- Python `str.strip()` with no argument: strip whitespace from both ends. -/
def pyStrip (l : List Char) : List Char := stripEnds pyIsSpace l

/-- Python `str.lower` restricted to its action on ASCII characters; every
character this model feeds to it is ASCII. -/
def asciiLower (c : Char) : Char :=
  if 65 ≤ c.toNat ∧ c.toNat ≤ 90 then Char.ofNat (c.toNat + 32) else c

/-- ASCII lowercase letter. -/
def isAsciiLowerAlpha (c : Char) : Bool := 97 ≤ c.toNat && c.toNat ≤ 122

/-- ASCII uppercase letter. -/
def isAsciiUpperAlpha (c : Char) : Bool := 65 ≤ c.toNat && c.toNat ≤ 90

/-- ASCII digit. -/
def isAsciiDigit (c : Char) : Bool := 48 ≤ c.toNat && c.toNat ≤ 57

/-- ASCII letter or digit, lowercase letters only. -/
def isLowerAlnum (c : Char) : Bool := isAsciiLowerAlpha c || isAsciiDigit c

/-- Regex `\w` as it acts on the ASCII-only strings produced inside
`django.utils.text.slugify` (the input has been encoded to ASCII first). -/
def isWordChar (c : Char) : Bool :=
  isAsciiLowerAlpha c || isAsciiUpperAlpha c || isAsciiDigit c || c = '_'

/-- The separator characters of `main/slugs.py` (`_SEPARATOR_CHARS`): space,
tab, newline, carriage return, form feed, vertical tab, hyphen-minus,
en dash (U+2013), em dash (U+2014), minus sign (U+2212) and slash. -/
def isSeparatorChar (c : Char) : Bool :=
  c.toNat = 32 || c.toNat = 9 || c.toNat = 10 || c.toNat = 13 || c.toNat = 12 ||
  c.toNat = 11 || c.toNat = 45 || c.toNat = 8211 || c.toNat = 8212 ||
  c.toNat = 8722 || c.toNat = 47

/-- The loop in `encyclopedai_slugify` treats a character as a separator when
it is in `_SEPARATOR_CHARS` or `char.isspace()` holds. -/
def isSeparator (c : Char) : Bool := isSeparatorChar c || pyIsSpace c

/-- One pass of the regex `[-\s]+ -> "-"` used by `django.utils.text.slugify`:
collapse every maximal run of hyphens and whitespace into a single hyphen.
The boolean records whether the previous character was part of such a run. -/
def collapseSepsAux : Bool → List Char → List Char
  | _, [] => []
  | inRun, c :: rest =>
    if c = '-' || pyIsSpace c then
      if inRun then collapseSepsAux true rest
      else '-' :: collapseSepsAux true rest
    else c :: collapseSepsAux false rest

/-- The regex `-{2,} -> "-"` of `main/slugs.py` (`_HYPHEN_COLLAPSE_RE`):
collapse every run of two or more hyphens into a single hyphen. -/
def collapseHyphensAux : Bool → List Char → List Char
  | _, [] => []
  | inRun, c :: rest =>
    if c = '-' then
      if inRun then collapseHyphensAux true rest
      else '-' :: collapseHyphensAux true rest
    else c :: collapseHyphensAux false rest

/-- Python `slug.replace("-)", ")")`: remove each hyphen that immediately
precedes a closing parenthesis, scanning left to right without rescanning
replaced text. -/
def replaceHyphenParen : List Char → List Char
  | [] => []
  | [c] => [c]
  | c :: d :: rest =>
    if c = '-' ∧ d = ')' then ')' :: replaceHyphenParen rest
    else c :: replaceHyphenParen (d :: rest)

/-- `django.utils.text.slugify(value, allow_unicode=False)`: NFKD-normalise,
encode to ASCII dropping the rest, lowercase, delete everything that is not a
word character, whitespace or hyphen, collapse hyphen/whitespace runs to a
single hyphen, and strip leading/trailing hyphens and underscores.  The NFKD
normaliser is a parameter. -/
def djangoSlugify (nfkd : List Char → List Char) (l : List Char) : List Char :=
  stripEnds (fun c => c = '-' || c = '_')
    (collapseSepsAux false
      ((((nfkd l).filter (fun c => c.toNat ≤ 127)).map asciiLower).filter
        (fun c => isWordChar c || pyIsSpace c || c = '-')))

/-- State of the character loop in `encyclopedai_slugify`: the `parts` list
(most recently appended part first) and the pending `buffer` (most recently
appended character first). -/
structure SlugState where
  parts : List (List Char)
  buffer : List Char
deriving Repr, DecidableEq

/-- The nested `flush_buffer` helper of `encyclopedai_slugify`: slugify the
buffered characters with Django's slugify and append the fragment to `parts`
when it is non-empty. -/
def flushBuffer (nfkd : List Char → List Char) (st : SlugState) : SlugState :=
  if st.buffer = [] then st
  else
    ⟨if djangoSlugify nfkd st.buffer.reverse = [] then st.parts
      else djangoSlugify nfkd st.buffer.reverse :: st.parts, []⟩

/-- The nested `append_separator` helper: push a `"-"` part unless `parts` is
empty or already ends with `"-"` or `"("`. -/
def appendSeparator (st : SlugState) : SlugState :=
  match st.parts with
  | [] => st
  | p :: _ => if p = ['-'] || p = ['('] then st else ⟨['-'] :: st.parts, st.buffer⟩

/-- The `parts.pop()` performed when a closing parenthesis follows a pending
`"-"` part: remove a leading `["-"]` (the parts list is stored most recent
first). -/
def popHyphen (ps : List (List Char)) : List (List Char) :=
  match ps with
  | ['-'] :: rest => rest
  | ps => ps

/-- The normalisation prefix of `encyclopedai_slugify`: NFKC-normalise,
replace underscores by spaces, and strip surrounding whitespace. -/
def slugNormalise (nfkc : List Char → List Char) (value : List Char) : List Char :=
  pyStrip ((nfkc value).map (fun c => if c = '_' then ' ' else c))

/-- One iteration of the `for char in normalised` loop of
`encyclopedai_slugify`. -/
def slugStep (nfkd : List Char → List Char) (st : SlugState) (c : Char) : SlugState :=
  if c = '(' ∨ c = ')' then
    ⟨[c] :: (if c = ')' then popHyphen (flushBuffer nfkd st).parts
      else (flushBuffer nfkd st).parts), []⟩
  else if isSeparator c then appendSeparator (flushBuffer nfkd st)
  else ⟨st.parts, c :: st.buffer⟩

/-- Run the character loop of `encyclopedai_slugify` over the normalised
input and return the final `parts` list in order of appending. -/
def runSlugLoop (nfkd : List Char → List Char) (l : List Char) : List (List Char) :=
  (flushBuffer nfkd (l.foldl (slugStep nfkd) ⟨[], []⟩)).parts.reverse

/-- The post-processing tail of `encyclopedai_slugify`: join the parts,
collapse hyphen runs, strip hyphens, lowercase, and drop hyphens before
closing parentheses. -/
def slugPost (parts : List (List Char)) : List Char :=
  replaceHyphenParen
    ((stripEnds (fun c => c = '-') (collapseHyphensAux false parts.flatten)).map
      asciiLower)

/-- `main/slugs.py` `encyclopedai_slugify`: NFKC-normalise (parameter `nfkc`),
replace underscores by spaces and strip, run the character loop preserving
parentheses, then post-process with `slugPost`.  `nfkd` is the normaliser
used by the inner `django.utils.text.slugify` calls. -/
def encyclopedai_slugify (nfkc nfkd : List Char → List Char) (value : List Char) :
    List Char :=
  if value = [] then []
  else if slugNormalise nfkc value = [] then []
  else slugPost (runSlugLoop nfkd (slugNormalise nfkc value))

/-- Characters that can occur in a slug produced by `encyclopedai_slugify`:
lowercase ASCII letters and digits, hyphen and the two parentheses. -/
def slugChar (c : Char) : Bool :=
  isLowerAlnum c || c = '-' || c = '(' || c = ')'

/-- Characters that can occur in a fragment returned by the inner
`django.utils.text.slugify` call (once underscores are ruled out). -/
def fragChar (c : Char) : Bool := isLowerAlnum c || c = '-'

/-- Structural facts about a non-literal part produced by `flush_buffer`. -/
structure FragOK (p : List Char) : Prop where
  ne_nil : p ≠ []
  chars : ∀ c ∈ p, fragChar c = true
  head_ne : p.head? ≠ some '-'
  last_ne : p.getLast? ≠ some '-'
  no_dd : ¬ ['-', '-'] <:+: p

/-- Every part appended by the `encyclopedai_slugify` loop is the literal
`"-"`, `"("` or `")"`, or a well-formed Django fragment. -/
def PartOK (p : List Char) : Prop :=
  p = ['-'] ∨ p = ['('] ∨ p = [')'] ∨ FragOK p

/-- Relation between a newly pushed part `x` and the previous head `y` of the
parts list: a `"-"` part is never pushed directly after a `"-"` or `"("`. -/
def PartRel (x y : List Char) : Prop :=
  ¬ (x = ['-'] ∧ (y = ['-'] ∨ y = ['(']))

/-- Invariant characterising the strings returned by `encyclopedai_slugify`:
only slug characters, no `--`, no `-)`, no `(-`, and no hyphen at either
end.  The empty string satisfies it vacuously. -/
structure GoodSlug (l : List Char) : Prop where
  chars : ∀ c ∈ l, slugChar c = true
  no_dd : ¬ ['-', '-'] <:+: l
  no_hp : ¬ ['-', ')'] <:+: l
  no_ph : ¬ ['(', '-'] <:+: l
  head_ne : l.head? ≠ some '-'
  last_ne : l.getLast? ≠ some '-'

/-- The string reconstructed from a loop state: the parts joined in order of
appending followed by the pending buffer. -/
def render (st : SlugState) : List Char :=
  st.parts.reverse.flatten ++ st.buffer.reverse

/-- Invariant of the `encyclopedai_slugify` character loop when it re-reads a
well-formed slug: the state renders back to the consumed prefix, the buffer
holds only lowercase alphanumerics, and no part is empty. -/
structure LoopInv (st : SlugState) (done : List Char) : Prop where
  render_eq : render st = done
  buffer_chars : ∀ c ∈ st.buffer, isLowerAlnum c = true
  parts_ne : ∀ p ∈ st.parts, p ≠ []

/-- Invariant of the `encyclopedai_slugify` character loop on an arbitrary
input whose NFKC normalisation is `src`: every part is well formed, a `"-"`
part never directly follows a `"-"` or `"("` part, and the buffer holds only
characters of `src` other than underscore. -/
structure BuildInv (src : List Char) (st : SlugState) : Prop where
  parts_ok : ∀ p ∈ st.parts, PartOK p
  chain : List.Chain' PartRel st.parts
  buffer_src : ∀ c ∈ st.buffer, c ∈ src ∧ c ≠ '_'

/-! ### The link extractor of `main/models.py` -/

/-- Characters that terminate the slug capture group of the outgoing-link
regex `\\[[^\\]]+\\]\\(/entries/([^/)#?]+)`. -/
def isSlugStop (c : Char) : Bool := c = '/' || c = ')' || c = '#' || c = '?'

/-- Match a literal character sequence at the start of the input, returning
the remainder on success. -/
def dropLit : List Char → List Char → Option (List Char)
  | [], l => some l
  | _ :: _, [] => none
  | c :: cs, d :: l => if c = d then dropLit cs l else none

/-- Attempt to match the regex `\\[[^\\]]+\\]\\(/entries/([^/)#?]+)` at the
start of the input (as `re.finditer` does at each position): a `[`, one or
more non-`]` characters, `]`, the literal `(/entries/`, then the captured
slug, a maximal non-empty run free of `/`, `)`, `#` and `?`.  Returns the
captured slug and the input remaining after the match. -/
def matchOutgoingLink (l : List Char) : Option (List Char × List Char) :=
  match l with
  | '[' :: rest =>
    if rest.takeWhile (fun c => c ≠ ']') = [] then none
    else
      match rest.dropWhile (fun c => c ≠ ']') with
      | ']' :: rest3 =>
        match dropLit (str "(/entries/") rest3 with
        | some rest4 =>
          if rest4.takeWhile (fun c => ¬ isSlugStop c) = [] then none
          else some (rest4.takeWhile (fun c => ¬ isSlugStop c),
            rest4.dropWhile (fun c => ¬ isSlugStop c))
        | none => none
      | _ => none
  | _ => none

/-- The `re.finditer` scan over the content: try a match at each position; on
success continue after the matched text, otherwise advance one character.
The fuel argument (instantiated with the input length, which bounds the
number of scan steps since every step consumes at least one character)
makes the recursion structural. -/
def scanOutgoingLinksAux : Nat → List Char → List (List Char)
  | 0, _ => []
  | _ + 1, [] => []
  | fuel + 1, c :: rest =>
    match matchOutgoingLink (c :: rest) with
    | some (slug, after) => slug :: scanOutgoingLinksAux fuel after
    | none => scanOutgoingLinksAux fuel rest

/-- All slugs captured by `_OUTGOING_LINK_PATTERN.finditer`, in match order. -/
def scanOutgoingLinks (l : List Char) : List (List Char) :=
  scanOutgoingLinksAux l.length l

/-- `main/models.py` `extract_outgoing_links`: the distinct slugs appearing
in markdown links of the form `[label](/entries/<slug>)`.  Python's
`list(set(...))` produces the distinct elements in an unspecified order; the
model keeps the first occurrence of each (`List.dedup`), which has the same
members. -/
def extract_outgoing_links (content : List Char) : List (List Char) :=
  if content = [] then [] else (scanOutgoingLinks content).dedup

/-! ### The Article model and `Article.save` of `main/models.py` -/

/-- Little-endian base-10 digits of `n`, with fuel to make the recursion
structural; `natDigitsAux n n` gives the digits of `n`. -/
def natDigitsAux : Nat → Nat → List Nat
  | 0, _ => []
  | _ + 1, 0 => []
  | fuel + 1, n + 1 => ((n + 1) % 10) :: natDigitsAux fuel ((n + 1) / 10)

/-- Decimal rendering of a natural number, as Python's string formatting of
an `int` produces it. -/
def natToChars (n : Nat) : List Char :=
  if n = 0 then ['0']
  else (natDigitsAux n n).reverse.map (fun d => Char.ofNat (48 + d))

/-- The candidate slug tried at suffix index `i` by the collision loop of
`Article.save`: the base slug on the first attempt, `base-i` afterwards. -/
def candidateSlug (base : List Char) (i : Nat) : List Char :=
  if i ≤ 1 then base else base ++ '-' :: natToChars i

/-- The `while` loop of `Article.save` searching for the first candidate
slug not already taken.  The source loop is unbounded; `taken.length + 1`
attempts always suffice (`chooseSlug_not_taken`), so the fuelled version
computes the same slug. -/
def chooseSlugAux (taken : List (List Char)) (base : List Char) :
    Nat → Nat → List Char
  | 0, i => candidateSlug base i
  | fuel + 1, i =>
    if candidateSlug base i ∈ taken then chooseSlugAux taken base fuel (i + 1)
    else candidateSlug base i

/-- First candidate slug (starting at index 1) not in `taken`. -/
def chooseSlug (taken : List (List Char)) (base : List Char) : List Char :=
  chooseSlugAux taken base (taken.length + 1) 1

/-- A stored Article row: primary key, title, unique slug, markdown content,
summary snippet, denormalized outgoing links, and the calendar day of
`created_at` (used by the daily quota). -/
structure ArticleRow where
  pk : Nat
  title : List Char
  slug : List Char
  content : List Char
  summary : List Char
  outgoing : List (List Char)
  createdDay : Nat
deriving Repr, DecidableEq

/-- The slug `Article.save` stores: when the current slug is empty, derive a
base slug from the title (falling back to `article-<uuid>` when the title
slugifies to nothing) and disambiguate against the slugs of all other rows
(`exclude(pk=self.pk)`); otherwise keep the existing slug. -/
def saveSlug (nfkc nfkd : List Char → List Char) (uuid : List Char)
    (a : ArticleRow) (rows : List ArticleRow) : List Char :=
  if a.slug = [] then
    chooseSlug ((rows.filter (fun b => b.pk ≠ a.pk)).map (fun b => b.slug))
      (if encyclopedai_slugify nfkc nfkd a.title = [] then str "article-" ++ uuid
        else encyclopedai_slugify nfkc nfkd a.title)
  else a.slug

/-- The row as `Article.save` persists it: slug filled in if needed and
`outgoing_links` recomputed from the current content. -/
def savedArticle (nfkc nfkd : List Char → List Char) (uuid : List Char)
    (a : ArticleRow) (rows : List ArticleRow) : ArticleRow :=
  { a with slug := saveSlug nfkc nfkd uuid a rows,
           outgoing := extract_outgoing_links a.content }

/-- `Article.save`: returns the saved row and the updated table (replace the
row with the same primary key, or insert a new row).  `uuid` models the
`shortuuid.uuid()` call used for the random fallback slug. -/
def articleSave (nfkc nfkd : List Char → List Char) (uuid : List Char)
    (a : ArticleRow) (rows : List ArticleRow) : ArticleRow × List ArticleRow :=
  if rows.any (fun b => b.pk = a.pk) then
    (savedArticle nfkc nfkd uuid a rows,
      rows.map (fun b => if b.pk = a.pk then savedArticle nfkc nfkd uuid a rows else b))
  else (savedArticle nfkc nfkd uuid a rows, rows ++ [savedArticle nfkc nfkd uuid a rows])

/-! ### The creation lock of `main/services.py` -/

/-- A row of the `ArticleCreationLock` table: primary key, unique slug,
title being generated, opaque ownership token, and absolute expiry. -/
structure LockRow where
  pk : Nat
  slug : List Char
  title : List Char
  token : List Char
  expiresAt : Nat
deriving Repr, DecidableEq

/-- The persistent store: the Article and ArticleCreationLock tables and
their next auto-increment primary keys. -/
structure Db where
  articles : List ArticleRow
  locks : List LockRow
  nextArticlePk : Nat
  nextLockPk : Nat
deriving Repr, DecidableEq

/-- The lock rows surviving the opportunistic cleanup
`filter(expires_at__lt=now).delete()`. -/
def unexpiredLocks (now : Nat) (locks : List LockRow) : List LockRow :=
  locks.filter (fun r => ¬ r.expiresAt < now)

/-- `_acquire_article_creation_lock` (services.py lines 67–98): inside one
atomic transaction, delete expired rows, select the row for the slug, raise
`ArticleCreationInProgress(slug, title)` if it is unexpired, otherwise
update it in place, or insert a fresh row.  When the exception is raised the
transaction rolls back, so the caller's database is unchanged; the error
value carries the existing row's slug and title. -/
def acquireArticleCreationLock (now ttl : Nat) (token : List Char)
    (slug title : List Char) (db : Db) : Except (List Char × List Char) Db :=
  match (unexpiredLocks now db.locks).find? (fun r => r.slug = slug) with
  | some ex =>
    if now < ex.expiresAt then Except.error (ex.slug, ex.title)
    else Except.ok { db with locks := (unexpiredLocks now db.locks).map (fun r =>
        if r.pk = ex.pk then
          { r with title := title, token := token, expiresAt := now + ttl }
        else r) }
  | none =>
    Except.ok { db with
      locks := unexpiredLocks now db.locks ++
        [⟨db.nextLockPk, slug, title, token, now + ttl⟩],
      nextLockPk := db.nextLockPk + 1 }

/-- `_release_article_creation_lock` (services.py lines 101–105): delete the
rows matching both the slug and the token; a no-op when absent. -/
def releaseArticleCreationLock (slug token : List Char) (db : Db) : Db :=
  { db with locks := db.locks.filter (fun r => ¬ (r.slug = slug ∧ r.token = token)) }

/-! ### Snippet markdown rendering (`_render_snippet_markdown`) -/

/-- `django.utils.html.escape`: replace the five HTML-special characters by
entities (a simultaneous translation). -/
def djEscape (l : List Char) : List Char :=
  (l.map (fun c =>
    if c = '&' then str "&amp;"
    else if c = '<' then str "&lt;"
    else if c = '>' then str "&gt;"
    else if c = '"' then str "&quot;"
    else if c = Char.ofNat 39 then str "&#x27;"
    else [c])).flatten

/-- Does the list start with the two given characters? -/
def startsWith2 (d1 d2 : Char) : List Char → Bool
  | e1 :: e2 :: _ => e1 = d1 && e2 = d2
  | _ => false

/-- Lazy body search for a double-delimiter inline pattern such as
`\\*\\*(.+?)\\*\\*`: the shortest non-empty newline-free body followed by the
two closing characters; returns the body and the text after the closer. -/
def findInnerD (d1 d2 : Char) : List Char → Option (List Char × List Char)
  | [] => none
  | c :: rest =>
    if c = '\n' then none
    else if startsWith2 d1 d2 rest then some ([c], rest.drop 2)
    else (findInnerD d1 d2 rest).map (fun p => (c :: p.1, p.2))

/-- `re.sub` for a double-delimiter pattern (`**`…`**` or `__`…`__`),
wrapping each body in the given open/close tags, scanning left to right. -/
def subDoubleAux (d : Char) (wrapOpen wrapClose : List Char) :
    Nat → List Char → List Char
  | 0, l => l
  | _ + 1, [] => []
  | fuel + 1, c :: rest =>
    if c = d ∧ rest.head? = some d then
      match findInnerD d d (rest.drop 1) with
      | some (inner, after) =>
        wrapOpen ++ inner ++ wrapClose ++ subDoubleAux d wrapOpen wrapClose fuel after
      | none => c :: subDoubleAux d wrapOpen wrapClose fuel rest
    else c :: subDoubleAux d wrapOpen wrapClose fuel rest

def subDouble (d : Char) (wrapOpen wrapClose : List Char) (l : List Char) : List Char :=
  subDoubleAux d wrapOpen wrapClose l.length l

/-- Lazy body search for a single-delimiter inline pattern such as
`\\*(.+?)\\*`. -/
def findInnerS (d : Char) : List Char → Option (List Char × List Char)
  | [] => none
  | c :: rest =>
    if c = '\n' then none
    else if rest.head? = some d then some ([c], rest.drop 1)
    else (findInnerS d rest).map (fun p => (c :: p.1, p.2))

/-- `re.sub` for a single-delimiter pattern (`*`…`*` or `_`…`_`). -/
def subSingleAux (d : Char) (wrapOpen wrapClose : List Char) :
    Nat → List Char → List Char
  | 0, l => l
  | _ + 1, [] => []
  | fuel + 1, c :: rest =>
    if c = d then
      match findInnerS d rest with
      | some (inner, after) =>
        wrapOpen ++ inner ++ wrapClose ++ subSingleAux d wrapOpen wrapClose fuel after
      | none => c :: subSingleAux d wrapOpen wrapClose fuel rest
    else c :: subSingleAux d wrapOpen wrapClose fuel rest

def subSingle (d : Char) (wrapOpen wrapClose : List Char) (l : List Char) : List Char :=
  subSingleAux d wrapOpen wrapClose l.length l

/-- The URL group `((?:[^()]+|\\([^)]*\\))+)` of the link pattern: a greedy
sequence of paren-free runs and single-level parenthesised groups, which
must be followed by the closing `)` of the markdown link.  Returns the URL
and the text after that closing parenthesis. -/
def parseUrlAux : Nat → List Char → List Char → Option (List Char × List Char)
  | 0, _, _ => none
  | fuel + 1, acc, l =>
    match l with
    | '(' :: r =>
      if (r.dropWhile (fun c => c ≠ ')')).head? = some ')' then
        parseUrlAux fuel
          (acc ++ '(' :: r.takeWhile (fun c => c ≠ ')') ++ [')'])
          ((r.dropWhile (fun c => c ≠ ')')).drop 1)
      else none
    | _ =>
      if l.takeWhile (fun c => c ≠ '(' ∧ c ≠ ')') = [] then
        if acc ≠ [] ∧ l.head? = some ')' then some (acc, l.drop 1) else none
      else
        parseUrlAux fuel (acc ++ l.takeWhile (fun c => c ≠ '(' ∧ c ≠ ')'))
          (l.dropWhile (fun c => c ≠ '(' ∧ c ≠ ')'))

def parseUrl (l : List Char) : Option (List Char × List Char) :=
  parseUrlAux (l.length + 1) [] l

/-- `re.sub` for the markdown link pattern
`\\[([^\\]]+)\\]\\(((?:[^()]+|\\([^)]*\\))+)\\)`, replaced by
`<a href="URL">LABEL</a>`. -/
def subLinkAux : Nat → List Char → List Char
  | 0, l => l
  | _ + 1, [] => []
  | fuel + 1, c :: rest =>
    if c = '[' ∧ rest.takeWhile (fun d => d ≠ ']') ≠ [] ∧
        (rest.dropWhile (fun d => d ≠ ']')).head? = some ']' ∧
        ((rest.dropWhile (fun d => d ≠ ']')).drop 1).head? = some '(' then
      match parseUrl ((rest.dropWhile (fun d => d ≠ ']')).drop 2) with
      | some (url, after) =>
        str "<a href=" ++ ['"'] ++ url ++ ['"', '>'] ++
          rest.takeWhile (fun d => d ≠ ']') ++ str "</a>" ++ subLinkAux fuel after
      | none => c :: subLinkAux fuel rest
    else c :: subLinkAux fuel rest

def subLink (l : List Char) : List Char := subLinkAux l.length l

/-- `re.sub` for inline code: a backtick, one or more non-backtick
characters, a backtick, wrapped in code tags. -/
def subCodeAux : Nat → List Char → List Char
  | 0, l => l
  | _ + 1, [] => []
  | fuel + 1, c :: rest =>
    if c = Char.ofNat 96 ∧ rest.takeWhile (fun d => d ≠ Char.ofNat 96) ≠ [] ∧
        (rest.dropWhile (fun d => d ≠ Char.ofNat 96)).head? = some (Char.ofNat 96) then
      str "<code>" ++ rest.takeWhile (fun d => d ≠ Char.ofNat 96) ++ str "</code>" ++
        subCodeAux fuel ((rest.dropWhile (fun d => d ≠ Char.ofNat 96)).drop 1)
    else c :: subCodeAux fuel rest

def subCode (l : List Char) : List Char := subCodeAux l.length l

/-- `main/services.py` `_render_snippet_markdown`: HTML-escape, then render
bold (`**`, `__`), italic (`*`, `_`), markdown links and inline code, in the
order of the source. -/
def renderSnippetMarkdown (l : List Char) : List Char :=
  subCode (subLink
    (subSingle '_' (str "<em>") (str "</em>")
      (subSingle '*' (str "<em>") (str "</em>")
        (subDouble '_' (str "<strong>") (str "</strong>")
          (subDouble '*' (str "<strong>") (str "</strong>") (djEscape l))))))

/-! ### Plain-text stripping (`_strip_markdown_from_excerpt`) -/

/-- `django.utils.html.strip_tags` restricted to well-formed tags, which is
all this code ever feeds it (every `<` in its input comes from
`_render_snippet_markdown`): drop each `<`…`>` span. -/
def stripTagsAux : Nat → List Char → List Char
  | 0, l => l
  | _ + 1, [] => []
  | fuel + 1, c :: rest =>
    if c = '<' ∧ (rest.dropWhile (fun d => d ≠ '>')).head? = some '>' then
      stripTagsAux fuel ((rest.dropWhile (fun d => d ≠ '>')).drop 1)
    else c :: stripTagsAux fuel rest

def stripTags (l : List Char) : List Char := stripTagsAux l.length l

/-- `html.unescape` restricted to the five entities `django.utils.html.escape`
produces, which are the only entities occurring in this pipeline's input. -/
def unescapeAux : Nat → List Char → List Char
  | 0, l => l
  | _ + 1, [] => []
  | fuel + 1, c :: rest =>
    if c = '&' then
      match dropLit (str "amp;") rest with
      | some r => '&' :: unescapeAux fuel r
      | none =>
        match dropLit (str "lt;") rest with
        | some r => '<' :: unescapeAux fuel r
        | none =>
          match dropLit (str "gt;") rest with
          | some r => '>' :: unescapeAux fuel r
          | none =>
            match dropLit (str "quot;") rest with
            | some r => '"' :: unescapeAux fuel r
            | none =>
              match dropLit (str "#x27;") rest with
              | some r => Char.ofNat 39 :: unescapeAux fuel r
              | none => '&' :: unescapeAux fuel rest
    else c :: unescapeAux fuel rest

def pyUnescape (l : List Char) : List Char := unescapeAux l.length l

/-- Regex `^\\s{0,3}>\\s?`: drop an up-to-three-space indent, a blockquote
marker and one optional following whitespace character. -/
def remBlockquote (l : List Char) : List Char :=
  if (l.takeWhile pyIsSpace).length ≤ 3 ∧
      (l.dropWhile pyIsSpace).head? = some '>' then
    if (((l.dropWhile pyIsSpace).drop 1).head?.map pyIsSpace).getD false then
      ((l.dropWhile pyIsSpace).drop 2)
    else ((l.dropWhile pyIsSpace).drop 1)
  else l

/-- Regex `^\\s{0,3}#{1,6}\\s*`: drop an up-to-three-space indent, one to six
heading markers, and following whitespace. -/
def remHeading (l : List Char) : List Char :=
  if (l.takeWhile pyIsSpace).length ≤ 3 ∧
      ((l.dropWhile pyIsSpace).takeWhile (fun c => c = '#')).length ≥ 1 then
    if ((l.dropWhile pyIsSpace).takeWhile (fun c => c = '#')).length ≤ 6 then
      ((l.dropWhile pyIsSpace).dropWhile (fun c => c = '#')).dropWhile pyIsSpace
    else ((l.dropWhile pyIsSpace).drop 6)
  else l

/-- Regex `^\\s{0,3}([-*+])\\s+`: drop an up-to-three-space indent, a list
marker, and at least one whitespace character. -/
def remListMarker (l : List Char) : List Char :=
  if (l.takeWhile pyIsSpace).length ≤ 3 ∧
      (((l.dropWhile pyIsSpace).head?.map
        (fun c => c = '-' || c = '*' || c = '+')).getD false) ∧
      ((((l.dropWhile pyIsSpace).drop 1).head?.map pyIsSpace).getD false) then
    ((l.dropWhile pyIsSpace).drop 1).dropWhile pyIsSpace
  else l

/-- Regex `^\\s*\\d+\\.\\s+`: drop indentation, an item number with its dot,
and at least one whitespace character. -/
def remNumber (l : List Char) : List Char :=
  if ((l.dropWhile pyIsSpace).takeWhile isAsciiDigit).length ≥ 1 ∧
      (((l.dropWhile pyIsSpace).dropWhile isAsciiDigit).head? = some '.') ∧
      (((((l.dropWhile pyIsSpace).dropWhile isAsciiDigit).drop 1).head?.map
        pyIsSpace).getD false) then
    (((l.dropWhile pyIsSpace).dropWhile isAsciiDigit).drop 1).dropWhile pyIsSpace
  else l

/-- Regex `[ \\t]+` → a single space, every occurrence. -/
def collapseSpaceTabAux : Bool → List Char → List Char
  | _, [] => []
  | inRun, c :: rest =>
    if c = ' ' || c = '\t' then
      if inRun then collapseSpaceTabAux true rest
      else ' ' :: collapseSpaceTabAux true rest
    else c :: collapseSpaceTabAux false rest

/-- One line of `_strip_markdown_from_excerpt`: render inline markdown,
strip tags, unescape entities, remove blockquote/heading/list/number
markers, collapse spaces and strip. -/
def stripMarkdownLine (line : List Char) : List Char :=
  pyStrip (collapseSpaceTabAux false
    (remNumber (remListMarker (remHeading (remBlockquote
      (pyUnescape (stripTags (renderSnippetMarkdown line))))))))

/-- Split on newline characters, as `str.splitlines` does for this code's
newline-separated content (a trailing newline yields no trailing empty
line). -/
def splitLinesAux (cur : List Char) : List Char → List (List Char)
  | [] => [cur.reverse]
  | '\n' :: rest => cur.reverse :: splitLinesAux [] rest
  | c :: rest => splitLinesAux (c :: cur) rest

def splitLines (l : List Char) : List (List Char) :=
  if l = [] then []
  else if (splitLinesAux [] l).getLast? = some [] then (splitLinesAux [] l).dropLast
  else splitLinesAux [] l

/-- `main/services.py` `_strip_markdown_from_excerpt`: process each
non-blank line and join the non-empty results with newlines. -/
def stripMarkdownExcerpt (text : List Char) : List Char :=
  pyStrip (List.intercalate ['\n'] ((splitLines text).filterMap (fun raw =>
    if pyStrip raw = [] then none
    else if stripMarkdownLine raw = [] then none
    else some (stripMarkdownLine raw))))

/-! ### Truncation (`django.utils.text.Truncator.chars`) -/

/-- Index of the character at which the the count of non-combining
characters exceeds `k` (the `end_index` of Django's `Truncator._text_chars`). -/
def truncEndIndex (comb : Char → Bool) : List Char → Nat → Nat
  | [], _ => 0
  | c :: rest, k =>
    if comb c then 1 + truncEndIndex comb rest k
    else if k = 0 then 0 else 1 + truncEndIndex comb rest (k - 1)

/-- `Truncator(text).chars(num)`: NFC-normalise; return the text unchanged
when its combining-aware length is within `num`, else cut before the
`num`-th non-combining character and append the horizontal-ellipsis
truncation character.  `nfc` and `comb` model `unicodedata.normalize("NFC")`
and `unicodedata.combining`. -/
def truncChars (nfc : List Char → List Char) (comb : Char → Bool) (num : Nat)
    (text : List Char) : List Char :=
  if ((nfc text).filter (fun c => ¬ comb c)).length ≤ num then nfc text
  else (nfc text).take (truncEndIndex comb (nfc text) (num - 1)) ++ [Char.ofNat 8230]

/-! ### The backlink briefing collector (`_collect_incoming_link_briefings`) -/

/-- Case-insensitive literal match (the collector's pattern is compiled with
`re.IGNORECASE`); ASCII case folding, which covers every character this
pipeline compares. -/
def dropLitCI : List Char → List Char → Option (List Char)
  | [], l => some l
  | _ :: _, [] => none
  | c :: cs, d :: l => if asciiLower c = asciiLower d then dropLitCI cs l else none

/-- The tail `(?:/)?(?:[#?][^)]*)?\\)` of the collector's pattern, after the
slug: an optional slash, an optional fragment or query, then the closing
parenthesis.  Returns the text after the closing parenthesis. -/
def matchAnchorTail (l : List Char) : Option (List Char) :=
  match (match l with | '/' :: r => r | _ => l) with
  | ')' :: r => some r
  | '#' :: r =>
    if (r.dropWhile (fun c => c ≠ ')')).head? = some ')' then
      some ((r.dropWhile (fun c => c ≠ ')')).drop 1)
    else none
  | '?' :: r =>
    if (r.dropWhile (fun c => c ≠ ')')).head? = some ')' then
      some ((r.dropWhile (fun c => c ≠ ')')).drop 1)
    else none
  | _ => none

/-- Match the collector's pattern
`\\[([^\\]]+)\\]\\(/entries/<slug>(?:/)?(?:[#?][^)]*)?\\)` at the start of
the input; returns the anchor label and the text after the match. -/
def matchAnchorAt (slug : List Char) (l : List Char) : Option (List Char × List Char) :=
  match l with
  | '[' :: rest =>
    if rest.takeWhile (fun c => c ≠ ']') = [] then none
    else
      match rest.dropWhile (fun c => c ≠ ']') with
      | ']' :: rest3 =>
        match dropLitCI (str "(/entries/") rest3 with
        | some rest4 =>
          match dropLitCI slug rest4 with
          | some rest5 =>
            (matchAnchorTail rest5).map
              (fun after => (rest.takeWhile (fun c => c ≠ ']'), after))
          | none => none
        | none => none
      | _ => none
  | _ => none

/-- All anchor labels matched on one line, in order (`pattern.finditer`). -/
def lineAnchorsAux (slug : List Char) : Nat → List Char → List (List Char)
  | 0, _ => []
  | _ + 1, [] => []
  | fuel + 1, c :: rest =>
    match matchAnchorAt slug (c :: rest) with
    | some (label, after) => label :: lineAnchorsAux slug fuel after
    | none => lineAnchorsAux slug fuel rest

def lineAnchors (slug line : List Char) : List (List Char) :=
  lineAnchorsAux slug line.length line

/-- Lexicographic comparison of titles by code point, modelling the
database's `ORDER BY title`. -/
def lexLe : List Char → List Char → Bool
  | [], _ => true
  | _ :: _, [] => false
  | c :: cs, d :: ds =>
    if c.toNat < d.toNat then true
    else if d.toNat < c.toNat then false
    else lexLe cs ds

def insertSorted (a : ArticleRow) : List ArticleRow → List ArticleRow
  | [] => [a]
  | b :: rest =>
    if lexLe a.title b.title then a :: b :: rest else b :: insertSorted a rest

/-- Insertion sort by title, modelling `order_by("title")`. -/
def sortByTitle : List ArticleRow → List ArticleRow
  | [] => []
  | a :: rest => insertSorted a (sortByTitle rest)

/-- A backlink briefing: the linking article's title, the plain-text excerpt
around the link, and the anchor text. -/
structure Briefing where
  title : List Char
  excerpt : List Char
  anchor : List Char
deriving Repr, DecidableEq

/-- Collector state: briefings so far, the de-duplication key set, and
whether `max_items` has been reached (the source returns early then). -/
structure CollectSt where
  briefings : List Briefing
  seen : List (Nat × List Char × List Char)
  done : Bool
deriving Repr, DecidableEq

/-- Process one regex match: de-duplicate on (article pk, excerpt, anchor),
drop empty plain excerpts, append the briefing, and stop at `max_items`. -/
def collectAnchor (maxItems : Nat) (art : ArticleRow) (excerpt : List Char)
    (st : CollectSt) (anchorRaw : List Char) : CollectSt :=
  if st.done then st
  else if (art.pk, excerpt, pyStrip anchorRaw) ∈ st.seen then st
  else if stripMarkdownExcerpt excerpt = [] then
    { st with seen := (art.pk, excerpt, pyStrip anchorRaw) :: st.seen }
  else
    { briefings := st.briefings ++
        [⟨art.title, stripMarkdownExcerpt excerpt, pyStrip anchorRaw⟩],
      seen := (art.pk, excerpt, pyStrip anchorRaw) :: st.seen,
      done := decide (maxItems ≤ st.briefings.length + 1) }

/-- The window of `lines_before`/`lines_after` lines around line `idx`,
joined and stripped (the raw excerpt before truncation). -/
def excerptWindow (lines : List (List Char)) (lb la idx : Nat) : List Char :=
  pyStrip (List.intercalate ['\n']
    ((lines.drop (idx - lb)).take (min lines.length (idx + la + 1) - (idx - lb))))

/-- Process one line of a linking article's content. -/
def collectLine (nfc : List Char → List Char) (comb : Char → Bool)
    (slug : List Char) (art : ArticleRow) (lines : List (List Char))
    (lb la maxItems : Nat) (st : CollectSt) (idx : Nat) : CollectSt :=
  if st.done then st
  else if lineAnchors slug (lines.getD idx []) = [] then st
  else if excerptWindow lines lb la idx = [] then st
  else (lineAnchors slug (lines.getD idx [])).foldl
    (collectAnchor maxItems art (truncChars nfc comb 600 (excerptWindow lines lb la idx)))
    st

/-- Process one linking article, line by line. -/
def collectArticle (nfc : List Char → List Char) (comb : Char → Bool)
    (slug : List Char) (lb la maxItems : Nat) (st : CollectSt)
    (art : ArticleRow) : CollectSt :=
  (List.range (splitLines art.content).length).foldl
    (collectLine nfc comb slug art (splitLines art.content) lb la maxItems) st

/-- `main/services.py` `_collect_incoming_link_briefings`: consider the
articles whose denormalized `outgoing_links` contain the target slug,
excluding the target itself, in title order; collect windowed excerpts
around each link, de-duplicated, stopping at `max_items`. -/
def collectIncomingLinkBriefings (nfc : List Char → List Char)
    (comb : Char → Bool) (articles : List ArticleRow) (targetSlug : List Char)
    (lb la maxItems : Nat) : List Briefing :=
  if pyStrip targetSlug = [] then []
  else ((sortByTitle (articles.filter (fun a =>
      decide (pyStrip targetSlug ∈ a.outgoing ∧ a.slug ≠ pyStrip targetSlug)))).foldl
    (collectArticle nfc comb (pyStrip targetSlug) lb la maxItems)
    ⟨[], [], false⟩).briefings

/-! ### The article service (`get_or_create_article` and the daily limit) -/

/-- The errors `get_or_create_article` can raise: `ValueError` on a blank
topic, `DailyArticleLimitExceeded`, `ArticleCreationInProgress` (carrying
the lock row's slug and title), and `ArticleGenerationError`. -/
inductive ServiceError where
  | valueError
  | dailyLimitExceeded
  | creationInProgress (slug title : List Char)
  | generationFailed
deriving Repr, DecidableEq

/-- The ambient context of one `get_or_create_article` call: the Unicode
normalisers, the LLM generation call (which may fail), the two fresh
random identifiers drawn during the call, the clock, and the settings. -/
structure ServiceEnv where
  nfkc : List Char → List Char
  nfkd : List Char → List Char
  nfc : List Char → List Char
  combining : Char → Bool
  gen : List Char → Option (List Char) → List Briefing → Except Unit (List Char)
  uuidSlug : List Char
  uuidToken : List Char
  now : Nat
  today : Nat
  ttl : Nat
  dailyLimit : Nat

/-- `Article.objects.filter(created_at__date=today).count()`. -/
def countToday (today : Nat) (articles : List ArticleRow) : Nat :=
  (articles.filter (fun a => decide (a.createdDay = today))).length

/-- `title__iexact` lookup (case folding modelled on ASCII). -/
def lookupTitle (title : List Char) (articles : List ArticleRow) : Option ArticleRow :=
  articles.find? (fun a => decide (a.title.map asciiLower = title.map asciiLower))

/-- `slug=...` lookup. -/
def lookupSlug (slug : List Char) (articles : List ArticleRow) : Option ArticleRow :=
  articles.find? (fun a => decide (a.slug = slug))

/-- `_maybe_refresh_summary`: overwrite the stored summary snippet with the
cleaned hint when the hint is non-empty and differs; returns the refreshed
row and the updated database. -/
def refreshSummary (cleanedSummary : List Char) (ex : ArticleRow) (db : Db) :
    ArticleRow × Db :=
  if cleanedSummary ≠ [] ∧ ex.summary ≠ cleanedSummary then
    ({ ex with summary := cleanedSummary },
     { db with articles := db.articles.map (fun b =>
        if b.pk = ex.pk then { ex with summary := cleanedSummary } else b) })
  else (ex, db)

/-- The slug derived from the `slug_hint` parameter, when one is given. -/
def hintSlug (nfkc nfkd : List Char → List Char) (slugHint : Option (List Char)) :
    List Char :=
  match slugHint with
  | none => []
  | some h => if h = [] then [] else encyclopedai_slugify nfkc nfkd h

/-- The preferred slug after comparing the title-derived slug with the hint:
the title slug wins when the title carries parentheses that survive
slugification but the hint lost them, or when there is no hint. -/
def resolvedSlug (nfkc nfkd : List Char → List Char) (cleanedTitle preferred : List Char) :
    List Char :=
  if encyclopedai_slugify nfkc nfkd cleanedTitle = [] then preferred
  else if ('(' ∈ cleanedTitle ∧ ')' ∈ cleanedTitle) ∧
      ('(' ∈ encyclopedai_slugify nfkc nfkd cleanedTitle ∧
        ')' ∈ encyclopedai_slugify nfkc nfkd cleanedTitle) ∧
      (preferred ≠ [] ∧ ('(' ∉ preferred ∨ ')' ∉ preferred)) then
    encyclopedai_slugify nfkc nfkd cleanedTitle
  else if preferred = [] then encyclopedai_slugify nfkc nfkd cleanedTitle
  else preferred

/-- `base_slug = preferred_slug or f"article-{shortuuid.uuid()}"`. -/
def baseSlugOf (env : ServiceEnv) (cleanedTitle : List Char)
    (slugHint : Option (List Char)) : List Char :=
  if resolvedSlug env.nfkc env.nfkd cleanedTitle
      (hintSlug env.nfkc env.nfkd slugHint) = [] then
    str "article-" ++ env.uuidSlug
  else resolvedSlug env.nfkc env.nfkd cleanedTitle (hintSlug env.nfkc env.nfkd slugHint)

/-- The `(article, False)` early return with its summary refresh. -/
def refreshResult (cleanedSummary : List Char) (ex : ArticleRow) (db : Db) :
    (Except ServiceError (ArticleRow × Bool)) × Db :=
  (Except.ok ((refreshSummary cleanedSummary ex db).1, false),
    (refreshSummary cleanedSummary ex db).2)

/-- A slug lookup followed by the summary refresh and the
`(article, False)` return, shared by the three early-return lookups. -/
def lookupAndRefresh (cleanedSummary slug : List Char) (db : Db) :
    Option ((Except ServiceError (ArticleRow × Bool)) × Db) :=
  match lookupSlug slug db.articles with
  | some ex => some (refreshResult cleanedSummary ex db)
  | none => none

/-- The body of the `try` block (`main/services.py` lines 562-591): re-check
for a concurrently created article, collect backlink briefings, call the
generator, then `get_or_create` and return `(article, created)`.  A
generation failure leaves the database untouched. -/
def createInLock (env : ServiceEnv) (cleanedTitle cleanedSummary baseSlug : List Char)
    (db1 : Db) : (Except ServiceError (ArticleRow × Bool)) × Db :=
  match lookupSlug baseSlug db1.articles with
  | some ex => refreshResult cleanedSummary ex db1
  | none =>
    match env.gen cleanedTitle (if cleanedSummary = [] then none else some cleanedSummary)
        (collectIncomingLinkBriefings env.nfc env.combining db1.articles baseSlug 2 2 5) with
    | Except.error _ => (Except.error ServiceError.generationFailed, db1)
    | Except.ok content =>
      match lookupSlug baseSlug db1.articles with
      | some ex2 => refreshResult cleanedSummary ex2 db1
      | none =>
        (Except.ok
          (⟨db1.nextArticlePk, cleanedTitle, baseSlug, content, cleanedSummary,
            extract_outgoing_links content, env.today⟩, true),
         { db1 with
            articles := db1.articles ++
              [⟨db1.nextArticlePk, cleanedTitle, baseSlug, content, cleanedSummary,
                extract_outgoing_links content, env.today⟩],
            nextArticlePk := db1.nextArticlePk + 1 })

/-- Steps 8-11 of `get_or_create_article`: acquire the per-slug creation
lock, run the `try` body, and release the lock in the `finally` clause on
every path through the body. -/
def getOrCreateLocked (env : ServiceEnv) (cleanedTitle cleanedSummary baseSlug : List Char)
    (db : Db) : (Except ServiceError (ArticleRow × Bool)) × Db :=
  match acquireArticleCreationLock env.now env.ttl env.uuidToken baseSlug cleanedTitle db with
  | Except.error e => (Except.error (ServiceError.creationInProgress e.1 e.2), db)
  | Except.ok db1 =>
    ((createInLock env cleanedTitle cleanedSummary baseSlug db1).1,
     releaseArticleCreationLock baseSlug env.uuidToken
       (createInLock env cleanedTitle cleanedSummary baseSlug db1).2)

/-- `main/services.py` `get_or_create_article` (lines 514-593): strip the
topic, try the title lookup, the hint-slug lookup and the base-slug lookup
(each refreshing the stored summary), then enforce the daily limit, take
the creation lock and generate. -/
def getOrCreateArticle (env : ServiceEnv) (topic : List Char)
    (summaryHint slugHint : Option (List Char)) (db : Db) :
    (Except ServiceError (ArticleRow × Bool)) × Db :=
  if pyStrip topic = [] then (Except.error ServiceError.valueError, db)
  else
    match lookupTitle (pyStrip topic) db.articles with
    | some ex => refreshResult (pyStrip (summaryHint.getD [])) ex db
    | none =>
      match (if hintSlug env.nfkc env.nfkd slugHint ≠ [] then
          lookupAndRefresh (pyStrip (summaryHint.getD []))
            (hintSlug env.nfkc env.nfkd slugHint) db
        else none) with
      | some r => r
      | none =>
        match lookupAndRefresh (pyStrip (summaryHint.getD []))
            (baseSlugOf env (pyStrip topic) slugHint) db with
        | some r => r
        | none =>
          if env.dailyLimit ≤ countToday env.today db.articles then
            (Except.error ServiceError.dailyLimitExceeded, db)
          else
            getOrCreateLocked env (pyStrip topic) (pyStrip (summaryHint.getD []))
              (baseSlugOf env (pyStrip topic) slugHint) db

/-- A concrete service environment whose generator always fails. -/
def envA : ServiceEnv :=
  ⟨id, id, id, fun _ => false, fun _ _ _ => Except.error (),
    str "u1u2u3u4", str "tok-1", 100, 7, 300, 5⟩

/-- A concrete service environment whose generator always succeeds, with a
daily limit of one article. -/
def envB : ServiceEnv :=
  { envA with
    gen := (fun _ _ _ => Except.ok (str "Generated content.")),
    dailyLimit := 1 }

/-- A concrete database holding one article, for exercising the
existing-article paths. -/
def dbOneArticle : Db :=
  ⟨[⟨1, str "Sun", str "sun", str "About the sun.", str "old snippet", [], 7⟩],
    [], 2, 1⟩

/-- Invariant of the collector state: the cap is respected (strictly below
it while collection continues), and every briefing's title comes from an
article satisfying `Q`. -/
def CollectInv (maxItems : Nat) (Q : ArticleRow → Prop) (st : CollectSt) : Prop :=
  st.briefings.length ≤ maxItems ∧
  (st.done = false → st.briefings.length < maxItems) ∧
  ∀ b ∈ st.briefings, ∃ art, Q art ∧ b.title = art.title

/-! ### Search result generation (`generate_search_results`) -/

/-- One element of the tool payload's `results` array, after Python's
`str(...)` coercions: whether the item was a JSON object, its stringified
`title`, `snippet` and `slug` members, and the `article_id` after the
`int(...)` conversion (`none` when absent or not convertible). -/
structure RawItem where
  isDict : Bool
  title : List Char
  snippet : List Char
  slug : List Char
  articleId : Option Nat
deriving Repr, DecidableEq

/-- One entry of the returned search-result list. -/
structure SearchEntry where
  title : List Char
  snippet : List Char
  slug : List Char
  articleId : Option Nat
  articleUrl : Option (List Char)
  entryUrl : List Char
deriving Repr, DecidableEq

/-- Uppercase hexadecimal digit, as `urllib.parse.quote` prints it. -/
def hexDigitChar (n : Nat) : Char :=
  if n < 10 then Char.ofNat (48 + n) else Char.ofNat (55 + n)

/-- The UTF-8 encoding of one code point. -/
def utf8Bytes (c : Char) : List Nat :=
  if c.toNat < 128 then [c.toNat]
  else if c.toNat < 2048 then [192 + c.toNat / 64, 128 + c.toNat % 64]
  else if c.toNat < 65536 then
    [224 + c.toNat / 4096, 128 + c.toNat / 64 % 64, 128 + c.toNat % 64]
  else
    [240 + c.toNat / 262144, 128 + c.toNat / 4096 % 64,
      128 + c.toNat / 64 % 64, 128 + c.toNat % 64]

/-- `urllib.parse.quote_plus` on one character: the always-safe characters
pass through, a space becomes `+`, everything else is percent-encoded
byte by byte. -/
def quotePlusChar (c : Char) : List Char :=
  if isAsciiLowerAlpha c || isAsciiUpperAlpha c || isAsciiDigit c ||
      c = '_' || c = '.' || c = '-' || c = '~' then [c]
  else if c = ' ' then ['+']
  else ((utf8Bytes c).map (fun b => ['%', hexDigitChar (b / 16), hexDigitChar (b % 16)])).flatten

def quotePlus (l : List Char) : List Char := (l.map quotePlusChar).flatten

/-- `urllib.parse.urlencode`: quote keys and values with `quote_plus` and
join `k=v` pairs with `&`. -/
def urlencodeParams (ps : List (List Char × List Char)) : List Char :=
  List.intercalate ['&'] (ps.map (fun p => quotePlus p.1 ++ '=' :: quotePlus p.2))

/-- `reverse("main:article-detail", kwargs={"slug": slug})`: the route is
`entries/<path:slug>/`; Django's URL quoting leaves the slug alphabet this
code produces (lowercase alphanumerics, hyphens and parentheses, which are
RFC 3986 sub-delimiters) unchanged. -/
def reverseArticleDetail (slug : List Char) : List Char :=
  str "/entries/" ++ slug ++ ['/']

/-- `f"{detail_path}?{urlencode(query_params)}"` with `title` and, when the
snippet is non-empty, `snippet`. -/
def entryUrlOf (slug title snippet : List Char) : List Char :=
  reverseArticleDetail slug ++ '?' ::
    urlencodeParams ((str "title", title) ::
      (if snippet = [] then [] else [(str "snippet", snippet)]))

/-- Article lookup by primary key.  `catalogue_lookup` is populated from
the article table and falls back to `Article.objects.filter(pk=...)` on a
miss, so resolution amounts to a lookup in the table. -/
def lookupPk (pk : Nat) (arts : List ArticleRow) : Option ArticleRow :=
  arts.find? (fun a => a.pk = pk)

/-- `slug_candidate` before de-duplication: the slugified `slug` member
when that yields something, else the slugified title. -/
def searchSlugBase (nfkc nfkd : List Char → List Char) (item : RawItem) : List Char :=
  if (if pyStrip item.slug = [] then []
      else encyclopedai_slugify nfkc nfkd (pyStrip item.slug)) = [] then
    encyclopedai_slugify nfkc nfkd (pyStrip item.title)
  else encyclopedai_slugify nfkc nfkd (pyStrip item.slug)

/-- The slug stored in the entry: the catalogue article's slug when
`article_id` resolves, else the de-duplicated candidate (the `while` loop
appending `-2`, `-3`, … is `chooseSlug`). -/
def searchFinalSlug (nfkc nfkd : List Char → List Char) (arts : List ArticleRow)
    (used : List (List Char)) (item : RawItem) : List Char :=
  match item.articleId with
  | some pk =>
    match lookupPk pk arts with
    | some art => art.slug
    | none => chooseSlug used (searchSlugBase nfkc nfkd item)
  | none => chooseSlug used (searchSlugBase nfkc nfkd item)

def searchArticleId (arts : List ArticleRow) (item : RawItem) : Option Nat :=
  match item.articleId with
  | some pk =>
    match lookupPk pk arts with
    | some _ => some pk
    | none => none
  | none => none

def searchArticleUrl (arts : List ArticleRow) (item : RawItem) : Option (List Char) :=
  match item.articleId with
  | some pk =>
    match lookupPk pk arts with
    | some art => some (reverseArticleDetail art.slug)
    | none => none
  | none => none

/-- The entry built for one accepted payload item. -/
def searchEntryOf (nfkc nfkd : List Char → List Char) (arts : List ArticleRow)
    (used : List (List Char)) (item : RawItem) : SearchEntry :=
  ⟨pyStrip item.title, renderSnippetMarkdown (pyStrip item.snippet),
    searchFinalSlug nfkc nfkd arts used item,
    searchArticleId arts item,
    searchArticleUrl arts item,
    entryUrlOf (searchFinalSlug nfkc nfkd arts used item) (pyStrip item.title)
      (pyStrip item.snippet)⟩

/-- One iteration of the parsing loop of `generate_search_results`
(services.py lines 802-854): skip non-objects, items with a blank title or
snippet, and items whose slug candidate normalises to nothing; otherwise
append the entry and record its final slug in `used_slugs`. -/
def searchStep (nfkc nfkd : List Char → List Char) (arts : List ArticleRow)
    (st : List SearchEntry × List (List Char)) (item : RawItem) :
    List SearchEntry × List (List Char) :=
  if item.isDict = false then st
  else if pyStrip item.title = [] ∨ pyStrip item.snippet = [] then st
  else if searchSlugBase nfkc nfkd item = [] then st
  else
    (st.1 ++ [searchEntryOf nfkc nfkd arts st.2 item],
      st.2 ++ [searchFinalSlug nfkc nfkd arts st.2 item])

/-- `generate_search_results` from the tool payload on (services.py lines
799-859): parse the `results` array; if anything was parsed return at most
the first five entries (`return parsed[:5]`), else raise `RuntimeError`. -/
def generate_search_results (nfkc nfkd : List Char → List Char)
    (arts : List ArticleRow) (rawResults : List RawItem) :
    Except Unit (List SearchEntry) :=
  if (rawResults.foldl (searchStep nfkc nfkd arts) ([], [])).1 = [] then
    Except.error ()
  else Except.ok ((rawResults.foldl (searchStep nfkc nfkd arts) ([], [])).1.take 5)

/-! ### Helper lemmas about the slug normaliser -/

theorem djangoSlugify_congr {nfkd nfkd' : List Char → List Char} {l : List Char}
    (h : nfkd l = nfkd' l) : djangoSlugify nfkd l = djangoSlugify nfkd' l := by
  simp only [djangoSlugify, h]

theorem flushBuffer_congr {nfkd nfkd' : List Char → List Char} {st : SlugState}
    (p : Char → Bool)
    (hag : ∀ b : List Char, (∀ c ∈ b, p c = true) →
      djangoSlugify nfkd b = djangoSlugify nfkd' b)
    (hb : ∀ c ∈ st.buffer, p c = true) :
    flushBuffer nfkd st = flushBuffer nfkd' st := by
  unfold flushBuffer
  split
  · rfl
  · rw [hag st.buffer.reverse (fun c hc => hb c (List.mem_reverse.mp hc))]

theorem flushBuffer_buffer (nfkd : List Char → List Char) (st : SlugState) :
    (flushBuffer nfkd st).buffer = [] ∨ (flushBuffer nfkd st).buffer = st.buffer := by
  unfold flushBuffer
  split
  · right; rfl
  · left; rfl

theorem appendSeparator_buffer (st : SlugState) :
    (appendSeparator st).buffer = st.buffer := by
  unfold appendSeparator
  split
  · rfl
  · split <;> rfl

theorem foldl_slugStep_congr (nfkd nfkd' : List Char → List Char) (p : Char → Bool)
    (hag : ∀ b : List Char, (∀ c ∈ b, p c = true) →
      djangoSlugify nfkd b = djangoSlugify nfkd' b) :
    ∀ (l : List Char) (st : SlugState),
      (∀ c ∈ l, c ≠ '(' → c ≠ ')' → isSeparator c = false → p c = true) →
      (∀ c ∈ st.buffer, p c = true) →
      l.foldl (slugStep nfkd) st = l.foldl (slugStep nfkd') st ∧
        (∀ c ∈ (l.foldl (slugStep nfkd) st).buffer, p c = true)
  | [], st, _, hb => ⟨rfl, hb⟩
  | c :: l, st, hl, hb => by
    have hfl := @flushBuffer_congr nfkd nfkd' _ p hag hb
    have hstep : slugStep nfkd st c = slugStep nfkd' st c := by
      unfold slugStep
      split
      · rw [hfl]
      · split
        · rw [hfl]
        · rfl
    have hbuf : ∀ d ∈ (slugStep nfkd st c).buffer, p d = true := by
      unfold slugStep
      split
      · intro d hd; simp at hd
      · split
        · next hpar hsep =>
          intro d hd
          rw [appendSeparator_buffer] at hd
          rcases flushBuffer_buffer nfkd st with h | h <;> rw [h] at hd
          · simp at hd
          · exact hb d hd
        · next hpar hsep =>
          intro d hd
          simp only [List.mem_cons] at hd
          rcases hd with rfl | hd
          · push_neg at hpar
            exact hl d (List.mem_cons_self ..) hpar.1 hpar.2 (by simpa using hsep)
          · exact hb d hd
    have ih := foldl_slugStep_congr nfkd nfkd' p hag l (slugStep nfkd st c)
      (fun d hd h1 h2 h3 => hl d (List.mem_cons_of_mem _ hd) h1 h2 h3) hbuf
    refine ⟨?_, by simpa using ih.2⟩
    simp only [List.foldl_cons]
    rw [← hstep]
    exact ih.1

theorem runSlugLoop_congr (nfkd nfkd' : List Char → List Char) (p : Char → Bool)
    (l : List Char)
    (hag : ∀ b : List Char, (∀ c ∈ b, p c = true) →
      djangoSlugify nfkd b = djangoSlugify nfkd' b)
    (hl : ∀ c ∈ l, c ≠ '(' → c ≠ ')' → isSeparator c = false → p c = true) :
    runSlugLoop nfkd l = runSlugLoop nfkd' l := by
  obtain ⟨heq, hbuf⟩ := foldl_slugStep_congr nfkd nfkd' p hag l ⟨[], []⟩ hl
    (by intro c hc; simp at hc)
  unfold runSlugLoop
  rw [← heq, flushBuffer_congr p hag hbuf]

theorem encyclopedai_slugify_congr (nfkc nfkd : List Char → List Char)
    (value : List Char) (p : Char → Bool)
    (h1 : nfkc value = value)
    (hp : ∀ c ∈ pyStrip (value.map (fun c => if c = '_' then ' ' else c)),
      c ≠ '(' → c ≠ ')' → isSeparator c = false → p c = true)
    (hag : ∀ b : List Char, (∀ c ∈ b, p c = true) →
      djangoSlugify nfkd b = djangoSlugify id b) :
    encyclopedai_slugify nfkc nfkd value = encyclopedai_slugify id id value := by
  have hnorm : slugNormalise nfkc value = slugNormalise id value := by
    unfold slugNormalise
    rw [h1]
    rfl
  unfold encyclopedai_slugify
  rw [hnorm]
  by_cases hv : value = []
  · simp only [if_pos hv]
  · simp only [if_neg hv]
    by_cases hn : slugNormalise id value = []
    · simp only [if_pos hn]
    · simp only [if_neg hn]
      rw [runSlugLoop_congr nfkd id p _ hag (by simpa [slugNormalise, pyStrip] using hp)]

/-- C7: the slug normaliser preserves parenthesis-delimited disambiguation
suffixes as literal `(` and `)` characters — the title "The Sun (newspaper)"
normalises to "the-sun-(newspaper)" — and a hyphen immediately preceding a
closing parenthesis is removed, so the title "word- )" normalises to "word)"
and not "word-)".  The hypotheses state that NFKC fixes the two ASCII input
strings and that NFKD fixes strings of ASCII letters, which hold of the real
Unicode normalisation functions. -/
theorem c7_parentheses_preserved (nfkc nfkd : List Char → List Char)
    (h1 : nfkc (str "The Sun (newspaper)") = str "The Sun (newspaper)")
    (h2 : nfkc (str "word- )") = str "word- )")
    (hd : ∀ l : List Char,
      (∀ c ∈ l, (isAsciiLowerAlpha c || isAsciiUpperAlpha c) = true) → nfkd l = l) :
    encyclopedai_slugify nfkc nfkd (str "The Sun (newspaper)") =
      str "the-sun-(newspaper)" ∧
    encyclopedai_slugify nfkc nfkd (str "word- )") = str "word)" := by
  have hag : ∀ b : List Char,
      (∀ c ∈ b, (isAsciiLowerAlpha c || isAsciiUpperAlpha c) = true) →
      djangoSlugify nfkd b = djangoSlugify id b := fun b hb =>
    djangoSlugify_congr (by rw [hd b hb]; rfl)
  constructor
  · rw [encyclopedai_slugify_congr nfkc nfkd _ _ h1 (by decide) hag]
    decide
  · rw [encyclopedai_slugify_congr nfkc nfkd _ _ h2 (by decide) hag]
    decide

/-- Witness for C7 at the identity normalisers, which satisfy all three
hypotheses. -/
theorem c7_parentheses_preserved_witness :
    encyclopedai_slugify id id (str "The Sun (newspaper)") =
      str "the-sun-(newspaper)" ∧
    encyclopedai_slugify id id (str "word- )") = str "word)" :=
  c7_parentheses_preserved id id rfl rfl (fun _ _ => rfl)

/-! ### Character-class facts -/

theorem char_eq_of_toNat {c d : Char} (h : c.toNat = d.toNat) : c = d := by
  rw [← Char.ofNat_toNat c, ← Char.ofNat_toNat d, h]

theorem toNat_ofNat_small {n : Nat} (h : n < 55296) : (Char.ofNat n).toNat = n := by
  simp [Char.ofNat, Nat.isValidChar, h, Char.ofNatAux, Char.toNat, UInt32.toNat,
    BitVec.ofNatLt]

theorem asciiLower_toNat (c : Char) :
    (asciiLower c).toNat =
      if 65 ≤ c.toNat ∧ c.toNat ≤ 90 then c.toNat + 32 else c.toNat := by
  unfold asciiLower
  split
  · next h => exact toNat_ofNat_small (by omega)
  · rfl

theorem lowAlnum_not_sep {c : Char} (h : isLowerAlnum c = true) :
    isSeparator c = false := by
  simp only [isLowerAlnum, isAsciiLowerAlpha, isAsciiDigit, Bool.or_eq_true,
    Bool.and_eq_true, decide_eq_true_eq] at h
  simp only [isSeparator, isSeparatorChar, pyIsSpace, Bool.eq_false_iff,
    ne_eq, Bool.or_eq_true, decide_eq_true_eq, not_or, Bool.and_eq_true]
  rcases h with h | h <;> omega

theorem lowAlnum_not_paren {c : Char} (h : isLowerAlnum c = true) :
    c ≠ '(' ∧ c ≠ ')' := by
  constructor <;> rintro rfl <;> exact absurd h (by decide)

theorem slugChar_cases {c : Char} (h : slugChar c = true) :
    isLowerAlnum c = true ∨ c = '-' ∨ c = '(' ∨ c = ')' := by
  simp only [slugChar, Bool.or_eq_true, decide_eq_true_eq] at h
  tauto

/-! ### Identity lemmas for the post-processing passes -/

theorem dropWhile_eq_self_of_head {p : Char → Bool} {l : List Char}
    (h : ∀ c, l.head? = some c → p c = false) : l.dropWhile p = l := by
  cases l with
  | nil => rfl
  | cons c rest =>
    rw [List.dropWhile_cons, if_neg]
    simp [h c rfl]

theorem stripEnds_eq_self {p : Char → Bool} {l : List Char}
    (h1 : ∀ c, l.head? = some c → p c = false)
    (h2 : ∀ c, l.getLast? = some c → p c = false) : stripEnds p l = l := by
  unfold stripEnds
  rw [dropWhile_eq_self_of_head h1,
    dropWhile_eq_self_of_head (fun c hc => h2 c (by rwa [List.head?_reverse] at hc)),
    List.reverse_reverse]

theorem stripEnds_eq_self_of_all {p : Char → Bool} {l : List Char}
    (h : ∀ c ∈ l, p c = false) : stripEnds p l = l :=
  stripEnds_eq_self (fun c hc => h c (List.mem_of_mem_head? hc))
    (fun c hc => h c (List.mem_of_mem_getLast? hc))

theorem collapseSepsAux_eq_self {l : List Char}
    (h : ∀ c ∈ l, (c = '-' || pyIsSpace c) = false) :
    collapseSepsAux false l = l := by
  induction l with
  | nil => rfl
  | cons c rest ih =>
    unfold collapseSepsAux
    rw [if_neg (by simp [h c (List.mem_cons_self ..)]),
      ih (fun d hd => h d (List.mem_cons_of_mem _ hd))]

theorem asciiLower_eq_self {c : Char} (h : isAsciiUpperAlpha c = false) :
    asciiLower c = c := by
  unfold asciiLower
  rw [if_neg]
  simp only [isAsciiUpperAlpha, Bool.eq_false_iff, ne_eq, Bool.and_eq_true,
    decide_eq_true_eq] at h
  exact h

theorem map_asciiLower_eq_self {l : List Char}
    (h : ∀ c ∈ l, isAsciiUpperAlpha c = false) : l.map asciiLower = l := by
  have := List.map_congr_left (f := asciiLower) (g := id)
    (l := l) (fun c hc => asciiLower_eq_self (h c hc))
  simpa using this

/-! ### Infix pattern utilities -/

theorem infix_cons_of {pat rest : List Char} (c : Char) (h : pat <:+: rest) :
    pat <:+: c :: rest :=
  h.trans (List.suffix_cons c rest).isInfix

theorem pair_infix_cons {a b c : Char} {t : List Char} :
    [a, b] <:+: c :: t ↔ (c = a ∧ t.head? = some b) ∨ [a, b] <:+: t := by
  rw [List.infix_cons_iff]
  constructor
  · rintro (⟨s, hs⟩ | hi)
    · simp only [List.cons_append, List.nil_append, List.cons.injEq] at hs
      obtain ⟨rfl, rfl, -⟩ := hs
      exact Or.inl ⟨rfl, rfl⟩
    · exact Or.inr hi
  · rintro (⟨rfl, hh⟩ | hi)
    · cases t with
      | nil => simp at hh
      | cons d t' =>
        simp only [List.head?_cons, Option.some.injEq] at hh
        subst hh
        exact Or.inl ⟨t', rfl⟩
    · exact Or.inr hi

theorem pair_infix_append {a b : Char} : ∀ {xs ys : List Char},
    [a, b] <:+: xs ++ ys →
    [a, b] <:+: xs ∨ [a, b] <:+: ys ∨ (xs.getLast? = some a ∧ ys.head? = some b)
  | [], ys, h => Or.inr (Or.inl (by simpa using h))
  | x :: xs', ys, h => by
    rw [List.cons_append, pair_infix_cons] at h
    rcases h with ⟨rfl, hh⟩ | hi
    · cases xs' with
      | nil => exact Or.inr (Or.inr ⟨rfl, by simpa using hh⟩)
      | cons d t' =>
        simp only [List.cons_append, List.head?_cons, Option.some.injEq] at hh
        subst hh
        exact Or.inl (pair_infix_cons.mpr (Or.inl ⟨rfl, rfl⟩))
    · rcases pair_infix_append hi with h | h | ⟨h1, h2⟩
      · exact Or.inl (infix_cons_of x h)
      · exact Or.inr (Or.inl h)
      · refine Or.inr (Or.inr ⟨?_, h2⟩)
        have hne : xs' ≠ [] := by
          intro hx; subst hx; simp at h1
        calc (x :: xs').getLast? = ([x] ++ xs').getLast? := rfl
          _ = xs'.getLast? := List.getLast?_append_of_ne_nil _ hne
          _ = some a := h1

theorem flatten_head_of_ne_nil {qs : List (List Char)} {b : Char}
    (hne : ∀ p ∈ qs, p ≠ []) (h : qs.flatten.head? = some b) :
    ∃ q qs', qs = q :: qs' ∧ q.head? = some b := by
  cases qs with
  | nil => simp at h
  | cons q qs' =>
    refine ⟨q, qs', rfl, ?_⟩
    rw [List.flatten_cons, List.head?_append_of_ne_nil q
      (hne q (List.mem_cons_self ..))] at h
    exact h

theorem pair_infix_flatten {a b : Char} : ∀ {qs : List (List Char)},
    (∀ p ∈ qs, p ≠ []) → (∀ p ∈ qs, ¬ [a, b] <:+: p) →
    List.Chain' (fun p q => ¬ (p.getLast? = some a ∧ q.head? = some b)) qs →
    ¬ [a, b] <:+: qs.flatten
  | [], _, _, _ => by simp
  | q :: qs', hne, hp, hchain => by
    intro hinf
    rw [List.flatten_cons] at hinf
    rcases pair_infix_append hinf with h | h | ⟨h1, h2⟩
    · exact hp q (List.mem_cons_self ..) h
    · exact pair_infix_flatten (fun p hp' => hne p (List.mem_cons_of_mem _ hp'))
        (fun p hp' => hp p (List.mem_cons_of_mem _ hp')) hchain.tail h
    · obtain ⟨q', qs'', rfl, hq'⟩ := flatten_head_of_ne_nil
        (fun p hp' => hne p (List.mem_cons_of_mem _ hp')) h2
      exact (List.chain'_cons.mp hchain).1 ⟨h1, hq'⟩

/-! ### Facts about the collapse, strip and replace passes -/

theorem collapseSepsAux_true_head : ∀ (l : List Char),
    (collapseSepsAux true l).head? ≠ some '-'
  | [] => by simp [collapseSepsAux]
  | c :: rest => by
    unfold collapseSepsAux
    split
    · exact collapseSepsAux_true_head rest
    · next h =>
      simp only [List.head?_cons, ne_eq, Option.some.injEq]
      intro hc
      simp [hc] at h

theorem collapseSepsAux_no_dd : ∀ (b : Bool) (l : List Char),
    ¬ ['-', '-'] <:+: collapseSepsAux b l
  | _, [] => by simp [collapseSepsAux]
  | b, c :: rest => by
    unfold collapseSepsAux
    split
    · split
      · exact collapseSepsAux_no_dd true rest
      · intro h
        rcases pair_infix_cons.mp h with ⟨-, hh⟩ | hi
        · exact collapseSepsAux_true_head rest hh
        · exact collapseSepsAux_no_dd true rest hi
    · next hcs =>
      intro h
      rcases pair_infix_cons.mp h with ⟨rfl, -⟩ | hi
      · simp at hcs
      · exact collapseSepsAux_no_dd false rest hi

theorem mem_collapseSepsAux : ∀ {b : Bool} {l : List Char} {c : Char},
    c ∈ collapseSepsAux b l → c = '-' ∨ (c ∈ l ∧ (c = '-' || pyIsSpace c) = false)
  | _, [], c => by simp [collapseSepsAux]
  | b, d :: rest, c => by
    unfold collapseSepsAux
    split
    · split
      · intro h
        rcases mem_collapseSepsAux h with h | ⟨h1, h2⟩
        · exact Or.inl h
        · exact Or.inr ⟨List.mem_cons_of_mem _ h1, h2⟩
      · intro h
        rcases List.mem_cons.mp h with rfl | h
        · exact Or.inl rfl
        · rcases mem_collapseSepsAux h with h | ⟨h1, h2⟩
          · exact Or.inl h
          · exact Or.inr ⟨List.mem_cons_of_mem _ h1, h2⟩
    · next hcs =>
      intro h
      rcases List.mem_cons.mp h with rfl | h
      · exact Or.inr ⟨List.mem_cons_self .., by simpa using hcs⟩
      · rcases mem_collapseSepsAux h with h | ⟨h1, h2⟩
        · exact Or.inl h
        · exact Or.inr ⟨List.mem_cons_of_mem _ h1, h2⟩

theorem collapseHyphensAux_true_head : ∀ (l : List Char),
    (collapseHyphensAux true l).head? ≠ some '-'
  | [] => by simp [collapseHyphensAux]
  | c :: rest => by
    unfold collapseHyphensAux
    split
    · exact collapseHyphensAux_true_head rest
    · next h =>
      simp only [List.head?_cons, ne_eq, Option.some.injEq]
      intro hc
      exact h hc

theorem collapseHyphensAux_eq_self : ∀ {b : Bool} {l : List Char},
    ¬ ['-', '-'] <:+: l → (b = true → l.head? ≠ some '-') →
    collapseHyphensAux b l = l
  | _, [], _, _ => rfl
  | b, c :: rest, hdd, hhd => by
    unfold collapseHyphensAux
    by_cases hc : c = '-'
    · subst hc
      cases b with
      | true => exact absurd rfl (hhd rfl)
      | false =>
        rw [if_pos rfl]
        have hrest : rest.head? ≠ some '-' := by
          intro hr
          cases rest with
          | nil => simp at hr
          | cons d t =>
            simp only [List.head?_cons, Option.some.injEq] at hr
            subst hr
            exact hdd ⟨[], t, rfl⟩
        rw [collapseHyphensAux_eq_self
          (fun h => hdd (infix_cons_of _ h)) (fun _ => hrest)]
        simp
    · rw [if_neg hc,
        collapseHyphensAux_eq_self (fun h => hdd (infix_cons_of _ h))
          (fun h => by simp at h)]

theorem infix_stripEnds (p : Char → Bool) (l : List Char) : stripEnds p l <:+: l := by
  unfold stripEnds
  have h1 : (l.dropWhile p) <:+ l := List.dropWhile_suffix p
  have h2 : ((l.dropWhile p).reverse.dropWhile p) <:+ (l.dropWhile p).reverse :=
    List.dropWhile_suffix p
  have h3 : ((l.dropWhile p).reverse.dropWhile p).reverse <+: (l.dropWhile p) := by
    have := List.reverse_prefix.mpr h2
    simpa using this
  exact (h3.isInfix).trans h1.isInfix

theorem mem_stripEnds {p : Char → Bool} {l : List Char} {c : Char}
    (h : c ∈ stripEnds p l) : c ∈ l :=
  (infix_stripEnds p l).subset h

theorem head_dropWhile_false {p : Char → Bool} : ∀ {l : List Char} {c : Char},
    (l.dropWhile p).head? = some c → p c = false
  | [], c => by simp
  | d :: rest, c => by
    rw [List.dropWhile_cons]
    split
    · exact head_dropWhile_false
    · next h =>
      simp only [List.head?_cons, Option.some.injEq]
      rintro rfl
      exact Bool.not_eq_true _ ▸ (by simpa using h)

theorem stripEnds_head {p : Char → Bool} {l : List Char} {c : Char}
    (h : (stripEnds p l).head? = some c) : p c = false := by
  unfold stripEnds at h
  rw [List.head?_reverse] at h
  set m := (l.dropWhile p).reverse.dropWhile p with hm
  have hne : m ≠ [] := by
    intro h0
    rw [h0] at h
    simp at h
  have hsuff : m <:+ (l.dropWhile p).reverse := hm ▸ List.dropWhile_suffix p
  obtain ⟨u, hu⟩ := hsuff
  have : (l.dropWhile p).reverse.getLast? = m.getLast? := by
    rw [← hu]
    exact List.getLast?_append_of_ne_nil _ hne
  rw [List.getLast?_reverse] at this
  exact head_dropWhile_false (this.trans h)

theorem stripEnds_last {p : Char → Bool} {l : List Char} {c : Char}
    (h : (stripEnds p l).getLast? = some c) : p c = false := by
  unfold stripEnds at h
  rw [List.getLast?_reverse] at h
  exact head_dropWhile_false h

theorem pair_not_infix_singleton {a b c : Char} : ¬ [a, b] <:+: [c] := by
  rintro ⟨s, t, hs⟩
  apply_fun List.length at hs
  simp at hs
  omega

theorem replaceHyphenParen_eq_pos {c d : Char} {rest : List Char}
    (hcd : c = '-' ∧ d = ')') :
    replaceHyphenParen (c :: d :: rest) = ')' :: replaceHyphenParen rest := by
  rw [replaceHyphenParen, if_pos hcd]

theorem replaceHyphenParen_eq_neg {c d : Char} {rest : List Char}
    (hcd : ¬ (c = '-' ∧ d = ')')) :
    replaceHyphenParen (c :: d :: rest) = c :: replaceHyphenParen (d :: rest) := by
  rw [replaceHyphenParen, if_neg hcd]

theorem replaceHyphenParen_nil_iff : ∀ {l : List Char},
    replaceHyphenParen l = [] ↔ l = [] := by
  intro l
  induction l using replaceHyphenParen.induct with
  | case1 => simp [replaceHyphenParen]
  | case2 c => simp [replaceHyphenParen]
  | case3 c d rest hcd ih => rw [replaceHyphenParen_eq_pos hcd]; simp
  | case4 c d rest hcd ih => rw [replaceHyphenParen_eq_neg hcd]; simp

theorem mem_replaceHyphenParen {l : List Char} : ∀ {c : Char},
    c ∈ replaceHyphenParen l → c ∈ l := by
  induction l using replaceHyphenParen.induct with
  | case1 => intro c h; simpa [replaceHyphenParen] using h
  | case2 c => intro d h; simpa [replaceHyphenParen] using h
  | case3 c d rest hcd ih =>
    intro x h
    rw [replaceHyphenParen_eq_pos hcd] at h
    rcases List.mem_cons.mp h with rfl | h
    · simp [hcd.2]
    · simp only [List.mem_cons]
      exact Or.inr (Or.inr (ih h))
  | case4 c d rest hcd ih =>
    intro x h
    rw [replaceHyphenParen_eq_neg hcd] at h
    rcases List.mem_cons.mp h with rfl | h
    · exact List.mem_cons_self ..
    · exact List.mem_cons_of_mem _ (ih h)

theorem head_replaceHyphenParen {l : List Char} {x : Char}
    (h : (replaceHyphenParen l).head? = some x) :
    l.head? = some x ∨ (x = ')' ∧ l.head? = some '-') := by
  induction l using replaceHyphenParen.induct with
  | case1 => simp [replaceHyphenParen] at h
  | case2 c => exact Or.inl (by simpa [replaceHyphenParen] using h)
  | case3 c d rest hcd ih =>
    rw [replaceHyphenParen_eq_pos hcd] at h
    simp only [List.head?_cons, Option.some.injEq] at h
    exact Or.inr ⟨h.symm, by simp [hcd.1]⟩
  | case4 c d rest hcd ih =>
    rw [replaceHyphenParen_eq_neg hcd] at h
    simp only [List.head?_cons, Option.some.injEq] at h
    exact Or.inl (by simp [h])

theorem last_replaceHyphenParen {l : List Char}
    (h : l.getLast? ≠ some '-') : (replaceHyphenParen l).getLast? ≠ some '-' := by
  induction l using replaceHyphenParen.induct with
  | case1 => simpa [replaceHyphenParen] using h
  | case2 c => simpa [replaceHyphenParen] using h
  | case3 c d rest hcd ih =>
    rw [replaceHyphenParen_eq_pos hcd]
    by_cases hr : replaceHyphenParen rest = []
    · rw [hr]; simp
    · have hrest : rest ≠ [] := fun h0 => hr (by simp [h0, replaceHyphenParen])
      have hlast : rest.getLast? ≠ some '-' := by
        rw [show (c :: d :: rest) = [c, d] ++ rest from rfl,
          List.getLast?_append_of_ne_nil _ hrest] at h
        exact h
      rw [show (')' :: replaceHyphenParen rest) = [')'] ++ replaceHyphenParen rest
        from rfl, List.getLast?_append_of_ne_nil _ hr]
      exact ih hlast
  | case4 c d rest hcd ih =>
    rw [replaceHyphenParen_eq_neg hcd]
    have hr : replaceHyphenParen (d :: rest) ≠ [] := by
      intro h0
      exact absurd (replaceHyphenParen_nil_iff.mp h0) (by simp)
    have hlast : (d :: rest).getLast? ≠ some '-' := by
      rw [show (c :: d :: rest) = [c] ++ (d :: rest) from rfl,
        List.getLast?_append_of_ne_nil _ (by simp)] at h
      exact h
    rw [show (c :: replaceHyphenParen (d :: rest)) =
      [c] ++ replaceHyphenParen (d :: rest) from rfl,
      List.getLast?_append_of_ne_nil _ hr]
    exact ih hlast

theorem no_dd_replaceHyphenParen {l : List Char}
    (h : ¬ ['-', '-'] <:+: l) : ¬ ['-', '-'] <:+: replaceHyphenParen l := by
  induction l using replaceHyphenParen.induct with
  | case1 => simp [replaceHyphenParen]
  | case2 c => rw [show replaceHyphenParen [c] = [c] from rfl]; exact pair_not_infix_singleton
  | case3 c d rest hcd ih =>
    rw [replaceHyphenParen_eq_pos hcd]
    intro hinf
    rcases pair_infix_cons.mp hinf with ⟨hp, -⟩ | hi
    · exact absurd hp (by decide)
    · exact ih (fun hd => h (infix_cons_of _ (infix_cons_of _ hd))) hi
  | case4 c d rest hcd ih =>
    rw [replaceHyphenParen_eq_neg hcd]
    intro hinf
    rcases pair_infix_cons.mp hinf with ⟨rfl, hh⟩ | hi
    · rcases head_replaceHyphenParen hh with hh' | ⟨hx, -⟩
      · simp only [List.head?_cons, Option.some.injEq] at hh'
        subst hh'
        exact h ⟨[], rest, rfl⟩
      · exact absurd hx (by decide)
    · exact ih (fun hd => h (infix_cons_of _ hd)) hi

theorem no_hp_replaceHyphenParen {l : List Char}
    (h : ¬ ['-', '-'] <:+: l) : ¬ ['-', ')'] <:+: replaceHyphenParen l := by
  induction l using replaceHyphenParen.induct with
  | case1 => simp [replaceHyphenParen]
  | case2 c => rw [show replaceHyphenParen [c] = [c] from rfl]; exact pair_not_infix_singleton
  | case3 c d rest hcd ih =>
    rw [replaceHyphenParen_eq_pos hcd]
    intro hinf
    rcases pair_infix_cons.mp hinf with ⟨hp, -⟩ | hi
    · exact absurd hp (by decide)
    · exact ih (fun hd => h (infix_cons_of _ (infix_cons_of _ hd))) hi
  | case4 c d rest hcd ih =>
    rw [replaceHyphenParen_eq_neg hcd]
    intro hinf
    rcases pair_infix_cons.mp hinf with ⟨rfl, hh⟩ | hi
    · rcases head_replaceHyphenParen hh with hh' | ⟨-, hh'⟩
      · simp only [List.head?_cons, Option.some.injEq] at hh'
        exact hcd ⟨rfl, hh'⟩
      · simp only [List.head?_cons, Option.some.injEq] at hh'
        subst hh'
        exact h ⟨[], rest, rfl⟩
    · exact ih (fun hd => h (infix_cons_of _ hd)) hi

theorem no_ph_replaceHyphenParen {l : List Char}
    (h : ¬ ['(', '-'] <:+: l) : ¬ ['(', '-'] <:+: replaceHyphenParen l := by
  induction l using replaceHyphenParen.induct with
  | case1 => simp [replaceHyphenParen]
  | case2 c => rw [show replaceHyphenParen [c] = [c] from rfl]; exact pair_not_infix_singleton
  | case3 c d rest hcd ih =>
    rw [replaceHyphenParen_eq_pos hcd]
    intro hinf
    rcases pair_infix_cons.mp hinf with ⟨hp, -⟩ | hi
    · exact absurd hp (by decide)
    · exact ih (fun hd => h (infix_cons_of _ (infix_cons_of _ hd))) hi
  | case4 c d rest hcd ih =>
    rw [replaceHyphenParen_eq_neg hcd]
    intro hinf
    rcases pair_infix_cons.mp hinf with ⟨rfl, hh⟩ | hi
    · rcases head_replaceHyphenParen hh with hh' | ⟨hx, -⟩
      · simp only [List.head?_cons, Option.some.injEq] at hh'
        subst hh'
        exact h ⟨[], rest, rfl⟩
      · exact absurd hx (by decide)
    · exact ih (fun hd => h (infix_cons_of _ hd)) hi

theorem head_ne_replaceHyphenParen {l : List Char}
    (h : l.head? ≠ some '-') : (replaceHyphenParen l).head? ≠ some '-' := by
  intro hh
  rcases head_replaceHyphenParen hh with hh' | ⟨hx, -⟩
  · exact h hh'
  · exact absurd hx (by decide)

/-! ### Lowercase-alphanumeric character facts -/

theorem lowAlnum_ne_hyphen {c : Char} (h : isLowerAlnum c = true) : c ≠ '-' := by
  rintro rfl; exact absurd h (by decide)

theorem lowAlnum_ne_underscore {c : Char} (h : isLowerAlnum c = true) : c ≠ '_' := by
  rintro rfl; exact absurd h (by decide)

theorem lowAlnum_not_space {c : Char} (h : isLowerAlnum c = true) :
    pyIsSpace c = false := by
  have := lowAlnum_not_sep h
  simp only [isSeparator, Bool.or_eq_false_iff] at this
  exact this.2

theorem lowAlnum_word {c : Char} (h : isLowerAlnum c = true) : isWordChar c = true := by
  simp only [isLowerAlnum, Bool.or_eq_true] at h
  simp only [isWordChar, Bool.or_eq_true]
  tauto

theorem lowAlnum_ascii {c : Char} (h : isLowerAlnum c = true) : c.toNat ≤ 127 := by
  simp only [isLowerAlnum, isAsciiLowerAlpha, isAsciiDigit, Bool.or_eq_true,
    Bool.and_eq_true, decide_eq_true_eq] at h
  rcases h with h | h <;> omega

theorem lowAlnum_not_upper {c : Char} (h : isLowerAlnum c = true) :
    isAsciiUpperAlpha c = false := by
  simp only [isLowerAlnum, isAsciiLowerAlpha, isAsciiDigit, Bool.or_eq_true,
    Bool.and_eq_true, decide_eq_true_eq] at h
  simp only [isAsciiUpperAlpha, Bool.eq_false_iff, ne_eq, Bool.and_eq_true,
    decide_eq_true_eq]
  rcases h with h | h <;> omega

theorem asciiLower_not_upper (c : Char) :
    isAsciiUpperAlpha (asciiLower c) = false := by
  have ht := asciiLower_toNat c
  simp only [isAsciiUpperAlpha, Bool.eq_false_iff, ne_eq, Bool.and_eq_true,
    decide_eq_true_eq]
  intro hcon
  by_cases hc : 65 ≤ c.toNat ∧ c.toNat ≤ 90
  · rw [if_pos hc] at ht; omega
  · rw [if_neg hc] at ht; omega

theorem asciiLower_eq_underscore {c : Char} (h : asciiLower c = '_') : c = '_' := by
  have ht := asciiLower_toNat c
  have h95 : (asciiLower c).toNat = 95 := by rw [h]; rfl
  by_cases hc : 65 ≤ c.toNat ∧ c.toNat ≤ 90
  · rw [if_pos hc] at ht; omega
  · rw [if_neg hc] at ht
    exact char_eq_of_toNat (by rw [ht] at h95; rw [h95]; rfl)

theorem slugChar_ne_underscore {c : Char} (h : slugChar c = true) : c ≠ '_' := by
  rcases slugChar_cases h with h' | rfl | rfl | rfl
  · exact lowAlnum_ne_underscore h'
  all_goals decide

theorem slugChar_not_space {c : Char} (h : slugChar c = true) :
    pyIsSpace c = false := by
  rcases slugChar_cases h with h' | rfl | rfl | rfl
  · exact lowAlnum_not_space h'
  all_goals decide

theorem slugChar_not_upper {c : Char} (h : slugChar c = true) :
    isAsciiUpperAlpha c = false := by
  rcases slugChar_cases h with h' | rfl | rfl | rfl
  · exact lowAlnum_not_upper h'
  all_goals decide

/-! ### Facts about Django slugify fragments -/

theorem djangoSlugify_eq_self_of_lowalnum {nfkd : List Char → List Char}
    {l : List Char} (hid : nfkd l = l) (h : ∀ c ∈ l, isLowerAlnum c = true) :
    djangoSlugify nfkd l = l := by
  unfold djangoSlugify
  rw [hid]
  rw [(List.filter_eq_self (l := l)).mpr (fun c hc => by
    simpa using lowAlnum_ascii (h c hc))]
  rw [map_asciiLower_eq_self (l := l) (fun c hc => lowAlnum_not_upper (h c hc))]
  rw [(List.filter_eq_self (l := l)).mpr (fun c hc => by simp [lowAlnum_word (h c hc)])]
  rw [collapseSepsAux_eq_self (l := l) (fun c hc => by
    simp [decide_eq_false (lowAlnum_ne_hyphen (h c hc)), lowAlnum_not_space (h c hc)])]
  rw [stripEnds_eq_self_of_all (l := l) (fun c hc => by
    simp [decide_eq_false (lowAlnum_ne_hyphen (h c hc)),
      decide_eq_false (lowAlnum_ne_underscore (h c hc))])]

theorem djangoSlugify_chars {nfkd : List Char → List Char} {l : List Char}
    {c : Char} (h : c ∈ djangoSlugify nfkd l) :
    isLowerAlnum c = true ∨ c = '-' ∨ c = '_' := by
  unfold djangoSlugify at h
  have h1 := mem_stripEnds h
  rcases mem_collapseSepsAux h1 with rfl | ⟨h2, h3⟩
  · exact Or.inr (Or.inl rfl)
  · have h4 := List.mem_filter.mp h2
    obtain ⟨c0, hc0, rfl⟩ := List.mem_map.mp h4.1
    have hkeep := h4.2
    simp only [Bool.or_eq_true] at hkeep
    simp only [Bool.or_eq_false_iff] at h3
    rcases hkeep with (hw | hsp) | hhy
    · simp only [isWordChar, Bool.or_eq_true] at hw
      rcases hw with ((hl | hu) | hd) | hus
      · exact Or.inl (by simp [isLowerAlnum, hl])
      · exact absurd hu (by simp [asciiLower_not_upper])
      · exact Or.inl (by simp [isLowerAlnum, hd])
      · exact Or.inr (Or.inr (by simpa using hus))
    · rw [hsp] at h3
      simp at h3
    · exact Or.inr (Or.inl (by simpa using hhy))

theorem djangoSlugify_head_ne {nfkd : List Char → List Char} {l : List Char} :
    (djangoSlugify nfkd l).head? ≠ some '-' := by
  intro h
  have := stripEnds_head (p := fun c => c = '-' || c = '_') (by
    unfold djangoSlugify at h
    exact h)
  simp at this

theorem djangoSlugify_last_ne {nfkd : List Char → List Char} {l : List Char} :
    (djangoSlugify nfkd l).getLast? ≠ some '-' := by
  intro h
  have := stripEnds_last (p := fun c => c = '-' || c = '_') (by
    unfold djangoSlugify at h
    exact h)
  simp at this

theorem djangoSlugify_no_dd {nfkd : List Char → List Char} {l : List Char} :
    ¬ ['-', '-'] <:+: djangoSlugify nfkd l := by
  intro h
  exact collapseSepsAux_no_dd false _ (h.trans (infix_stripEnds _ _))

theorem djangoSlugify_underscore_mem {nfkd : List Char → List Char}
    {l : List Char} (h : '_' ∈ djangoSlugify nfkd l) : '_' ∈ nfkd l := by
  unfold djangoSlugify at h
  have h1 := mem_stripEnds h
  rcases mem_collapseSepsAux h1 with heq | ⟨h2, -⟩
  · exact absurd heq (by decide)
  · have h4 := List.mem_filter.mp h2
    obtain ⟨c0, hc0, he⟩ := List.mem_map.mp h4.1
    have hc0u : c0 = '_' := asciiLower_eq_underscore he
    subst hc0u
    exact (List.mem_filter.mp hc0).1

theorem fragOK_of_django {nfkd : List Char → List Char} {b : List Char}
    (hne : djangoSlugify nfkd b ≠ []) (hus : '_' ∉ nfkd b) :
    FragOK (djangoSlugify nfkd b) := by
  refine ⟨hne, ?_, djangoSlugify_head_ne, djangoSlugify_last_ne, djangoSlugify_no_dd⟩
  intro c hc
  rcases djangoSlugify_chars hc with h | rfl | rfl
  · simp [fragChar, h]
  · simp [fragChar]
  · exact absurd (djangoSlugify_underscore_mem hc) hus

/-! ### Reconstruction: re-slugifying a well-formed slug is the identity -/

theorem render_push (p : List Char) (ps : List (List Char)) (buf : List Char) :
    render ⟨p :: ps, buf⟩ = ps.reverse.flatten ++ p ++ buf.reverse := by
  simp [render, List.flatten_append]

theorem done_ends_of_parts {st : SlugState} {done p : List Char}
    {rest : List (List Char)} (hr : render st = done) (hb : st.buffer = [])
    (hp : st.parts = p :: rest) : done = rest.reverse.flatten ++ p := by
  rw [← hr, render, hb, hp]
  simp [List.flatten_append]

theorem pair_infix_of_split {O done todo X : List Char} {d c : Char}
    (hdone : done = X ++ [d]) (hsplit : done ++ c :: todo = O) : [d, c] <:+: O :=
  ⟨X, todo, by rw [← hsplit, hdone]; simp⟩

theorem appendSeparator_eq_push {st : SlugState} {p : List Char}
    {rest : List (List Char)} (hp : st.parts = p :: rest)
    (h1 : p ≠ ['-']) (h2 : p ≠ ['(']) :
    appendSeparator st = ⟨['-'] :: st.parts, st.buffer⟩ := by
  unfold appendSeparator
  rw [hp]
  show (if (p = ['-'] || p = ['(']) = true then st else ⟨['-'] :: p :: rest, st.buffer⟩) =
    ⟨['-'] :: p :: rest, st.buffer⟩
  rw [if_neg (by simp [h1, h2])]

theorem popHyphen_eq_self {ps : List (List Char)}
    (h : ∀ rest, ps ≠ ['-'] :: rest) : popHyphen ps = ps := by
  unfold popHyphen
  split
  · next rest => exact absurd rfl (h rest)
  · rfl

theorem flushBuffer_loopInv {nfkd : List Char → List Char} {st : SlugState}
    {done : List Char}
    (hB : ∀ l : List Char, (∀ c ∈ l, isLowerAlnum c = true) → nfkd l = l)
    (inv : LoopInv st done) :
    LoopInv (flushBuffer nfkd st) done ∧ (flushBuffer nfkd st).buffer = [] := by
  unfold flushBuffer
  by_cases hb : st.buffer = []
  · rw [if_pos hb]
    exact ⟨inv, hb⟩
  · rw [if_neg hb]
    have hmem : ∀ c ∈ st.buffer.reverse, isLowerAlnum c = true :=
      fun c hc => inv.buffer_chars c (List.mem_reverse.mp hc)
    have hfrag : djangoSlugify nfkd st.buffer.reverse = st.buffer.reverse :=
      djangoSlugify_eq_self_of_lowalnum (hB _ hmem) hmem
    have hrne : st.buffer.reverse ≠ [] := by simpa using hb
    rw [hfrag, if_neg hrne]
    refine ⟨⟨?_, by simp, ?_⟩, rfl⟩
    · rw [render_push, ← inv.render_eq, render]
      simp
    · intro p hp
      rcases List.mem_cons.mp hp with rfl | hp
      · exact hrne
      · exact inv.parts_ne p hp

theorem slugStep_loopInv {nfkd : List Char → List Char} {O : List Char}
    (hg : GoodSlug O)
    (hB : ∀ l : List Char, (∀ c ∈ l, isLowerAlnum c = true) → nfkd l = l)
    {c : Char} {done todo : List Char} {st : SlugState}
    (hsplit : done ++ c :: todo = O) (inv : LoopInv st done) :
    LoopInv (slugStep nfkd st c) (done ++ [c]) := by
  have hcO : c ∈ O := by
    rw [← hsplit]
    exact List.mem_append.mpr (Or.inr (List.mem_cons_self ..))
  rcases slugChar_cases (hg.chars c hcO) with halnum | rfl | rfl | rfl
  · -- lowercase alphanumeric: goes to the buffer
    obtain ⟨hnp1, hnp2⟩ := lowAlnum_not_paren halnum
    unfold slugStep
    rw [if_neg (by tauto), if_neg (by simp [lowAlnum_not_sep halnum])]
    refine ⟨?_, ?_, inv.parts_ne⟩
    · rw [render, ← inv.render_eq, render]
      simp
    · intro d hd
      rcases List.mem_cons.mp hd with rfl | hd
      · exact halnum
      · exact inv.buffer_chars d hd
  · -- separator hyphen
    obtain ⟨inv1, hbuf1⟩ := flushBuffer_loopInv hB inv
    unfold slugStep
    rw [if_neg (by decide), if_pos (by decide)]
    set st1 := flushBuffer nfkd st with hst1
    have hparts_ne : st1.parts ≠ [] := by
      intro h0
      have : done = [] := by
        rw [← inv1.render_eq, render, h0, hbuf1]
        simp
      subst this
      simp only [List.nil_append] at hsplit
      exact hg.head_ne (by rw [← hsplit]; rfl)
    obtain ⟨p, rest, hp⟩ := List.exists_cons_of_ne_nil hparts_ne
    have hdone := done_ends_of_parts inv1.render_eq hbuf1 hp
    have hpd : p ≠ ['-'] := by
      rintro rfl
      exact hg.no_dd (pair_infix_of_split hdone hsplit)
    have hpp : p ≠ ['('] := by
      rintro rfl
      exact hg.no_ph (pair_infix_of_split hdone hsplit)
    rw [appendSeparator_eq_push hp hpd hpp]
    refine ⟨?_, ?_, ?_⟩
    · rw [render_push]
      have hrend : render st1 = done := inv1.render_eq
      rw [render, hbuf1] at hrend
      simp only [List.reverse_nil, List.append_nil] at hrend
      rw [hrend, hbuf1]
      simp
    · rw [hbuf1]
      simp
    · intro q hq
      rcases List.mem_cons.mp hq with rfl | hq
      · simp
      · exact inv1.parts_ne q hq
  · -- opening parenthesis
    obtain ⟨inv1, hbuf1⟩ := flushBuffer_loopInv hB inv
    unfold slugStep
    rw [if_pos (Or.inl rfl), if_neg (by decide)]
    refine ⟨?_, by simp, ?_⟩
    · rw [render_push]
      have hrend : render (flushBuffer nfkd st) = done := inv1.render_eq
      rw [render, hbuf1] at hrend
      simp only [List.reverse_nil, List.append_nil] at hrend
      rw [hrend]
      simp
    · intro q hq
      rcases List.mem_cons.mp hq with rfl | hq
      · simp
      · exact inv1.parts_ne q hq
  · -- closing parenthesis
    obtain ⟨inv1, hbuf1⟩ := flushBuffer_loopInv hB inv
    unfold slugStep
    rw [if_pos (Or.inr rfl), if_pos rfl]
    have hpop : popHyphen (flushBuffer nfkd st).parts = (flushBuffer nfkd st).parts := by
      apply popHyphen_eq_self
      intro rest hp
      have hdone := done_ends_of_parts inv1.render_eq hbuf1 hp
      exact hg.no_hp (pair_infix_of_split hdone hsplit)
    rw [hpop]
    refine ⟨?_, by simp, ?_⟩
    · rw [render_push]
      have hrend : render (flushBuffer nfkd st) = done := inv1.render_eq
      rw [render, hbuf1] at hrend
      simp only [List.reverse_nil, List.append_nil] at hrend
      rw [hrend]
      simp
    · intro q hq
      rcases List.mem_cons.mp hq with rfl | hq
      · simp
      · exact inv1.parts_ne q hq

theorem foldl_slugStep_loopInv {nfkd : List Char → List Char} {O : List Char}
    (hg : GoodSlug O)
    (hB : ∀ l : List Char, (∀ c ∈ l, isLowerAlnum c = true) → nfkd l = l) :
    ∀ (todo done : List Char) (st : SlugState), done ++ todo = O →
      LoopInv st done → LoopInv (todo.foldl (slugStep nfkd) st) O
  | [], done, st, hsplit, inv => by
    rw [List.foldl_nil]
    rw [List.append_nil] at hsplit
    exact hsplit ▸ inv
  | c :: todo, done, st, hsplit, inv => by
    rw [List.foldl_cons]
    exact foldl_slugStep_loopInv hg hB todo (done ++ [c]) _
      (by rw [List.append_assoc]; simpa using hsplit)
      (slugStep_loopInv hg hB hsplit inv)

theorem runSlugLoop_flatten {nfkd : List Char → List Char} {O : List Char}
    (hg : GoodSlug O)
    (hB : ∀ l : List Char, (∀ c ∈ l, isLowerAlnum c = true) → nfkd l = l) :
    (runSlugLoop nfkd O).flatten = O := by
  have base : LoopInv (⟨[], []⟩ : SlugState) [] :=
    ⟨by simp [render], by simp, by simp⟩
  have hfin := foldl_slugStep_loopInv hg hB O [] ⟨[], []⟩ (by simp) base
  obtain ⟨inv1, hbuf1⟩ := flushBuffer_loopInv hB hfin
  unfold runSlugLoop
  have := inv1.render_eq
  rw [render, hbuf1] at this
  simpa using this

/-! ### Identity of the full normaliser on well-formed slugs -/

theorem replaceHyphenParen_eq_self {l : List Char}
    (h : ¬ ['-', ')'] <:+: l) : replaceHyphenParen l = l := by
  induction l using replaceHyphenParen.induct with
  | case1 => rfl
  | case2 c => rfl
  | case3 c d rest hcd ih =>
    exact absurd ⟨[], rest, by simp [hcd.1, hcd.2]⟩ h
  | case4 c d rest hcd ih =>
    rw [replaceHyphenParen_eq_neg hcd, ih (fun hh => h (infix_cons_of _ hh))]

theorem slugPost_flatten_eq {qs : List (List Char)}
    (hg : GoodSlug qs.flatten) : slugPost qs = qs.flatten := by
  unfold slugPost
  rw [collapseHyphensAux_eq_self hg.no_dd (fun h => by simp at h)]
  rw [stripEnds_eq_self
    (fun c hc => by
      have : c ≠ '-' := fun h => hg.head_ne (h ▸ hc)
      simp [this])
    (fun c hc => by
      have : c ≠ '-' := fun h => hg.last_ne (h ▸ hc)
      simp [this])]
  rw [map_asciiLower_eq_self (fun c hc => slugChar_not_upper (hg.chars c hc))]
  rw [replaceHyphenParen_eq_self hg.no_hp]

theorem slugify_fixes_goodSlug (nfkc nfkd : List Char → List Char)
    (hA : ∀ l : List Char, (∀ c ∈ l, slugChar c = true) → nfkc l = l)
    (hB : ∀ l : List Char, (∀ c ∈ l, isLowerAlnum c = true) → nfkd l = l)
    {l : List Char} (hg : GoodSlug l) :
    encyclopedai_slugify nfkc nfkd l = l := by
  by_cases hl : l = []
  · subst hl; rfl
  · have hmap : l.map (fun c => if c = '_' then ' ' else c) = l := by
      have := List.map_congr_left (l := l)
        (f := fun c => if c = '_' then ' ' else c) (g := id)
        (fun c hc => if_neg (slugChar_ne_underscore (hg.chars c hc)))
      simpa using this
    have hnorm : slugNormalise nfkc l = l := by
      unfold slugNormalise
      rw [hA l hg.chars, hmap]
      exact stripEnds_eq_self_of_all (fun c hc => slugChar_not_space (hg.chars c hc))
    unfold encyclopedai_slugify
    rw [hnorm, if_neg hl, if_neg hl]
    have hflat := runSlugLoop_flatten hg hB
    calc slugPost (runSlugLoop nfkd l)
        = (runSlugLoop nfkd l).flatten := slugPost_flatten_eq (by rw [hflat]; exact hg)
      _ = l := hflat

/-! ### The output of the normaliser is always a well-formed slug -/

theorem goodSlug_nil : GoodSlug [] := by
  refine ⟨by simp, ?_, ?_, ?_, by simp, by simp⟩ <;> simp

theorem partOK_ne_nil {p : List Char} (h : PartOK p) : p ≠ [] := by
  rcases h with rfl | rfl | rfl | hf
  · simp
  · simp
  · simp
  · exact hf.ne_nil

theorem partOK_chars {p : List Char} (h : PartOK p) :
    ∀ c ∈ p, slugChar c = true := by
  rcases h with rfl | rfl | rfl | hf
  · intro c hc; rcases List.mem_singleton.mp hc with rfl; decide
  · intro c hc; rcases List.mem_singleton.mp hc with rfl; decide
  · intro c hc; rcases List.mem_singleton.mp hc with rfl; decide
  · intro c hc
    have := hf.chars c hc
    simp only [fragChar, Bool.or_eq_true] at this
    simp only [slugChar, Bool.or_eq_true]
    tauto

theorem partOK_head_hyphen {p : List Char} (h : PartOK p)
    (hl : p.head? = some '-') : p = ['-'] := by
  rcases h with rfl | rfl | rfl | hf
  · rfl
  · simp at hl
  · simp at hl
  · exact absurd hl hf.head_ne

theorem partOK_last_hyphen {p : List Char} (h : PartOK p)
    (hl : p.getLast? = some '-') : p = ['-'] := by
  rcases h with rfl | rfl | rfl | hf
  · rfl
  · simp at hl
  · simp at hl
  · exact absurd hl hf.last_ne

theorem partOK_last_lparen {p : List Char} (h : PartOK p)
    (hl : p.getLast? = some '(') : p = ['('] := by
  rcases h with rfl | rfl | rfl | hf
  · simp at hl
  · rfl
  · simp at hl
  · have := hf.chars '(' (List.mem_of_mem_getLast? hl)
    exact absurd this (by decide)

theorem partOK_no_dd {p : List Char} (h : PartOK p) : ¬ ['-', '-'] <:+: p := by
  rcases h with rfl | rfl | rfl | hf
  · exact pair_not_infix_singleton
  · exact pair_not_infix_singleton
  · exact pair_not_infix_singleton
  · exact hf.no_dd

theorem mem_popHyphen {ps : List (List Char)} {p : List Char}
    (h : p ∈ popHyphen ps) : p ∈ ps := by
  unfold popHyphen at h
  split at h
  · exact List.mem_cons_of_mem _ h
  · exact h

theorem chain_popHyphen {ps : List (List Char)}
    (h : List.Chain' PartRel ps) : List.Chain' PartRel (popHyphen ps) := by
  unfold popHyphen
  split
  · exact h.tail
  · exact h

theorem flushBuffer_buildInv {nfkd : List Char → List Char} {src : List Char}
    {st : SlugState}
    (hC : ∀ l : List Char, (∀ c ∈ l, c ∈ src ∧ c ≠ '_') → '_' ∉ nfkd l)
    (inv : BuildInv src st) :
    BuildInv src (flushBuffer nfkd st) ∧ (flushBuffer nfkd st).buffer = [] := by
  unfold flushBuffer
  by_cases hb : st.buffer = []
  · rw [if_pos hb]
    exact ⟨inv, hb⟩
  · rw [if_neg hb]
    by_cases hfr : djangoSlugify nfkd st.buffer.reverse = []
    · rw [if_pos hfr]
      exact ⟨⟨inv.parts_ok, inv.chain, by simp⟩, rfl⟩
    · rw [if_neg hfr]
      have hfrag : FragOK (djangoSlugify nfkd st.buffer.reverse) :=
        fragOK_of_django hfr
          (hC _ (fun c hc => inv.buffer_src c (List.mem_reverse.mp hc)))
      have hfne : djangoSlugify nfkd st.buffer.reverse ≠ ['-'] := by
        intro h0
        exact hfrag.head_ne (by rw [h0]; rfl)
      refine ⟨⟨?_, ?_, by simp⟩, rfl⟩
      · intro p hp
        rcases List.mem_cons.mp hp with rfl | hp
        · exact Or.inr (Or.inr (Or.inr hfrag))
        · exact inv.parts_ok p hp
      · rw [List.chain'_cons']
        refine ⟨fun q hq => ?_, inv.chain⟩
        rintro ⟨h1, -⟩
        exact hfne h1

theorem appendSeparator_eq_of_nil {st : SlugState} (hp : st.parts = []) :
    appendSeparator st = st := by
  unfold appendSeparator
  rw [hp]

theorem appendSeparator_eq_of_head {st : SlugState} {p : List Char}
    {rest : List (List Char)} (hp : st.parts = p :: rest)
    (h : (p = ['-'] || p = ['(']) = true) : appendSeparator st = st := by
  unfold appendSeparator
  rw [hp]
  exact if_pos h

theorem appendSeparator_buildInv {src : List Char} {st : SlugState}
    (inv : BuildInv src st) (hbe : st.buffer = []) :
    BuildInv src (appendSeparator st) ∧ (appendSeparator st).buffer = [] := by
  rcases hps : st.parts with _ | ⟨p, rest⟩
  · rw [appendSeparator_eq_of_nil hps]
    exact ⟨inv, hbe⟩
  · by_cases hcond : (p = ['-'] || p = ['(']) = true
    · rw [appendSeparator_eq_of_head hps hcond]
      exact ⟨inv, hbe⟩
    · have hpd : p ≠ ['-'] := by
        intro h0; apply hcond; simp [h0]
      have hpp : p ≠ ['('] := by
        intro h0; apply hcond; simp [h0]
      rw [appendSeparator_eq_push hps hpd hpp]
      refine ⟨⟨?_, ?_, fun c hc => inv.buffer_src c hc⟩, hbe⟩
      · intro q hq
        rcases List.mem_cons.mp hq with rfl | hq
        · exact Or.inl rfl
        · exact inv.parts_ok q hq
      · rw [List.chain'_cons']
        refine ⟨fun q hq => ?_, inv.chain⟩
        rw [hps] at hq
        simp only [List.head?_cons, Option.mem_def, Option.some.injEq] at hq
        subst hq
        rintro ⟨-, h2⟩
        rcases h2 with h2 | h2
        · exact hpd h2
        · exact hpp h2

theorem slugStep_buildInv {nfkd : List Char → List Char} {src : List Char}
    {c : Char} {st : SlugState}
    (hC : ∀ l : List Char, (∀ c ∈ l, c ∈ src ∧ c ≠ '_') → '_' ∉ nfkd l)
    (hcsrc : isSeparator c = false → c ≠ '(' → c ≠ ')' → c ∈ src ∧ c ≠ '_')
    (inv : BuildInv src st) : BuildInv src (slugStep nfkd st c) := by
  obtain ⟨inv1, hb1⟩ := flushBuffer_buildInv hC inv
  unfold slugStep
  by_cases hpar : c = '(' ∨ c = ')'
  · rw [if_pos hpar]
    have hbase : (∀ p ∈ (if c = ')' then popHyphen (flushBuffer nfkd st).parts
        else (flushBuffer nfkd st).parts), PartOK p) ∧
        List.Chain' PartRel (if c = ')' then popHyphen (flushBuffer nfkd st).parts
          else (flushBuffer nfkd st).parts) := by
      split
      · exact ⟨fun p hp => inv1.parts_ok p (mem_popHyphen hp),
          chain_popHyphen inv1.chain⟩
      · exact ⟨inv1.parts_ok, inv1.chain⟩
    refine ⟨?_, ?_, by simp⟩
    · intro p hp
      rcases List.mem_cons.mp hp with rfl | hp
      · rcases hpar with rfl | rfl
        · exact Or.inr (Or.inl rfl)
        · exact Or.inr (Or.inr (Or.inl rfl))
      · exact hbase.1 p hp
    · rw [List.chain'_cons']
      refine ⟨fun q hq => ?_, hbase.2⟩
      rintro ⟨h1, -⟩
      rcases hpar with rfl | rfl <;> simp at h1
  · rw [if_neg hpar]
    push_neg at hpar
    by_cases hsep : isSeparator c = true
    · rw [if_pos hsep]
      exact (appendSeparator_buildInv inv1 hb1).1
    · rw [if_neg hsep]
      refine ⟨inv.parts_ok, inv.chain, ?_⟩
      intro d hd
      rcases List.mem_cons.mp hd with rfl | hd
      · exact hcsrc (by simpa using hsep) hpar.1 hpar.2
      · exact inv.buffer_src d hd

theorem foldl_slugStep_buildInv {nfkd : List Char → List Char} {src : List Char}
    (hC : ∀ l : List Char, (∀ c ∈ l, c ∈ src ∧ c ≠ '_') → '_' ∉ nfkd l) :
    ∀ (l : List Char) (st : SlugState),
      (∀ c ∈ l, isSeparator c = false → c ≠ '(' → c ≠ ')' → c ∈ src ∧ c ≠ '_') →
      BuildInv src st → BuildInv src (l.foldl (slugStep nfkd) st)
  | [], st, _, inv => inv
  | c :: l, st, hl, inv => by
    rw [List.foldl_cons]
    exact foldl_slugStep_buildInv hC l _
      (fun d hd => hl d (List.mem_cons_of_mem _ hd))
      (slugStep_buildInv hC (hl c (List.mem_cons_self ..)) inv)

theorem chain_dd_boundary {qs : List (List Char)}
    (hok : ∀ p ∈ qs, PartOK p) (hchain : List.Chain' (flip PartRel) qs) :
    List.Chain' (fun p q => ¬ (p.getLast? = some '-' ∧ q.head? = some '-')) qs := by
  induction qs with
  | nil => simp
  | cons p qs ih =>
    rw [List.chain'_cons'] at hchain ⊢
    refine ⟨?_, ih (fun q hq => hok q (List.mem_cons_of_mem _ hq)) hchain.2⟩
    intro q hq
    rintro ⟨h1, h2⟩
    have hqm : q ∈ qs := List.mem_of_mem_head? hq
    have hp1 : p = ['-'] := partOK_last_hyphen (hok p (List.mem_cons_self ..)) h1
    have hq1 : q = ['-'] :=
      partOK_head_hyphen (hok q (List.mem_cons_of_mem _ hqm)) h2
    exact hchain.1 q hq ⟨hq1, Or.inl hp1⟩

theorem chain_ph_boundary {qs : List (List Char)}
    (hok : ∀ p ∈ qs, PartOK p) (hchain : List.Chain' (flip PartRel) qs) :
    List.Chain' (fun p q => ¬ (p.getLast? = some '(' ∧ q.head? = some '-')) qs := by
  induction qs with
  | nil => simp
  | cons p qs ih =>
    rw [List.chain'_cons'] at hchain ⊢
    refine ⟨?_, ih (fun q hq => hok q (List.mem_cons_of_mem _ hq)) hchain.2⟩
    intro q hq
    rintro ⟨h1, h2⟩
    have hqm : q ∈ qs := List.mem_of_mem_head? hq
    have hp1 : p = ['('] := partOK_last_lparen (hok p (List.mem_cons_self ..)) h1
    have hq1 : q = ['-'] :=
      partOK_head_hyphen (hok q (List.mem_cons_of_mem _ hqm)) h2
    exact hchain.1 q hq ⟨hq1, Or.inr hp1⟩

theorem flatten_facts_of_parts {qs : List (List Char)}
    (hok : ∀ p ∈ qs, PartOK p) (hchain : List.Chain' (flip PartRel) qs) :
    (∀ c ∈ qs.flatten, slugChar c = true) ∧
    ¬ ['-', '-'] <:+: qs.flatten ∧ ¬ ['(', '-'] <:+: qs.flatten := by
  refine ⟨?_, ?_, ?_⟩
  · intro c hc
    obtain ⟨p, hp, hcp⟩ := List.mem_flatten.mp hc
    exact partOK_chars (hok p hp) c hcp
  · exact pair_infix_flatten (fun p hp => partOK_ne_nil (hok p hp))
      (fun p hp => partOK_no_dd (hok p hp)) (chain_dd_boundary hok hchain)
  · refine pair_infix_flatten (fun p hp => partOK_ne_nil (hok p hp))
      (fun p hp => ?_) (chain_ph_boundary hok hchain)
    intro hinf
    have := partOK_chars (hok p hp) '(' (hinf.subset (by simp))
    have h2 := partOK_chars (hok p hp) '-' (hinf.subset (by simp))
    rcases hok p hp with rfl | rfl | rfl | hf
    · exact absurd hinf pair_not_infix_singleton
    · exact absurd hinf pair_not_infix_singleton
    · exact absurd hinf pair_not_infix_singleton
    · have := hf.chars '(' (hinf.subset (by simp))
      exact absurd this (by decide)

theorem slugify_output_goodSlug (nfkc nfkd : List Char → List Char)
    (value : List Char)
    (hC : ∀ l : List Char, (∀ c ∈ l, c ∈ nfkc value ∧ c ≠ '_') → '_' ∉ nfkd l) :
    GoodSlug (encyclopedai_slugify nfkc nfkd value) := by
  unfold encyclopedai_slugify
  by_cases hv : value = []
  · rw [if_pos hv]; exact goodSlug_nil
  · rw [if_neg hv]
    by_cases hn : slugNormalise nfkc value = []
    · rw [if_pos hn]; exact goodSlug_nil
    · rw [if_neg hn]
      have hsrc : ∀ c ∈ slugNormalise nfkc value,
          isSeparator c = false → c ≠ '(' → c ≠ ')' → c ∈ nfkc value ∧ c ≠ '_' := by
        intro c hc hsep h1 h2
        unfold slugNormalise pyStrip at hc
        have hm := mem_stripEnds hc
        obtain ⟨c0, hc0, he⟩ := List.mem_map.mp hm
        by_cases h0 : c0 = '_'
        · subst h0
          rw [if_pos rfl] at he
          rw [← he] at hsep
          exact absurd hsep (by decide)
        · rw [if_neg h0] at he
          subst he
          exact ⟨hc0, h0⟩
      have base : BuildInv (nfkc value) ⟨[], []⟩ := ⟨by simp, by simp, by simp⟩
      have hfin := foldl_slugStep_buildInv hC (slugNormalise nfkc value)
        ⟨[], []⟩ hsrc base
      obtain ⟨invf, -⟩ := flushBuffer_buildInv hC hfin
      have hok : ∀ p ∈ runSlugLoop nfkd (slugNormalise nfkc value), PartOK p := by
        intro p hp
        exact invf.parts_ok p (List.mem_reverse.mp hp)
      have hchain : List.Chain' (flip PartRel)
          (runSlugLoop nfkd (slugNormalise nfkc value)) :=
        List.chain'_reverse.mpr invf.chain
      obtain ⟨hcharsF, hddF, hphF⟩ := flatten_facts_of_parts hok hchain
      unfold slugPost
      rw [collapseHyphensAux_eq_self hddF (fun h => by simp at h)]
      have hs2chars : ∀ c ∈ stripEnds (fun c => c = '-')
          (runSlugLoop nfkd (slugNormalise nfkc value)).flatten, slugChar c = true :=
        fun c hc => hcharsF c (mem_stripEnds hc)
      have hs2dd : ¬ ['-', '-'] <:+: stripEnds (fun c => c = '-')
          (runSlugLoop nfkd (slugNormalise nfkc value)).flatten :=
        fun h => hddF (h.trans (infix_stripEnds _ _))
      have hs2ph : ¬ ['(', '-'] <:+: stripEnds (fun c => c = '-')
          (runSlugLoop nfkd (slugNormalise nfkc value)).flatten :=
        fun h => hphF (h.trans (infix_stripEnds _ _))
      have hs2head : (stripEnds (fun c => c = '-')
          (runSlugLoop nfkd (slugNormalise nfkc value)).flatten).head? ≠ some '-' := by
        intro h
        have := stripEnds_head h
        simp at this
      have hs2last : (stripEnds (fun c => c = '-')
          (runSlugLoop nfkd (slugNormalise nfkc value)).flatten).getLast? ≠ some '-' := by
        intro h
        have := stripEnds_last h
        simp at this
      rw [map_asciiLower_eq_self (fun c hc => slugChar_not_upper (hs2chars c hc))]
      exact ⟨fun c hc => hs2chars c (mem_replaceHyphenParen hc),
        no_dd_replaceHyphenParen hs2dd,
        no_hp_replaceHyphenParen hs2dd,
        no_ph_replaceHyphenParen hs2ph,
        head_ne_replaceHyphenParen hs2head,
        last_replaceHyphenParen hs2last⟩

/-- C6: the slug normaliser of `main/slugs.py` is idempotent — re-applying
`encyclopedai_slugify` to an already-produced slug, treated as a title,
leaves it unchanged.  The hypotheses state true facts about the Unicode
normalisation functions: NFKC fixes strings of slug characters (lowercase
ASCII alphanumerics, hyphen and parentheses), NFKD fixes strings of lowercase
ASCII alphanumerics, and NFKD introduces no underscore when applied to
characters drawn from an NFKC-normalised string with underscores removed. -/
theorem c6_slugify_idempotent (nfkc nfkd : List Char → List Char)
    (value : List Char)
    (hA : ∀ l : List Char, (∀ c ∈ l, slugChar c = true) → nfkc l = l)
    (hB : ∀ l : List Char, (∀ c ∈ l, isLowerAlnum c = true) → nfkd l = l)
    (hC : ∀ l : List Char, (∀ c ∈ l, c ∈ nfkc value ∧ c ≠ '_') → '_' ∉ nfkd l) :
    encyclopedai_slugify nfkc nfkd (encyclopedai_slugify nfkc nfkd value) =
      encyclopedai_slugify nfkc nfkd value :=
  slugify_fixes_goodSlug nfkc nfkd hA hB
    (slugify_output_goodSlug nfkc nfkd value hC)

/-- Witness for C6 at the identity normalisers (which satisfy all three
hypotheses) and a concrete title. -/
theorem c6_slugify_idempotent_witness :
    encyclopedai_slugify id id
        (encyclopedai_slugify id id (str "Mercury  (Planet)__X")) =
      encyclopedai_slugify id id (str "Mercury  (Planet)__X") :=
  c6_slugify_idempotent id id (str "Mercury  (Planet)__X")
    (fun _ _ => rfl) (fun _ _ => rfl)
    (fun _ h hl => (h '_' hl).2 rfl)

/-! ### C8: the link extractor -/

theorem matchOutgoingLink_spec {l s a : List Char}
    (h : matchOutgoingLink l = some (s, a)) :
    s ≠ [] ∧ ∀ c ∈ s, isSlugStop c = false := by
  unfold matchOutgoingLink at h
  split at h
  · split at h
    · exact absurd h (by simp)
    · next hne =>
      split at h
      · split at h
        · split at h
          · exact absurd h (by simp)
          · next hne2 =>
            simp only [Option.some.injEq, Prod.mk.injEq] at h
            obtain ⟨rfl, -⟩ := h
            refine ⟨hne2, fun c hc => ?_⟩
            have := List.mem_takeWhile_imp hc
            simpa using this
        · exact absurd h (by simp)
      · exact absurd h (by simp)
  · exact absurd h (by simp)

theorem scanOutgoingLinksAux_mem : ∀ {fuel : Nat} {l s : List Char},
    s ∈ scanOutgoingLinksAux fuel l → s ≠ [] ∧ ∀ c ∈ s, isSlugStop c = false
  | 0, l, s => by simp [scanOutgoingLinksAux]
  | fuel + 1, [], s => by simp [scanOutgoingLinksAux]
  | fuel + 1, c :: rest, s => by
    unfold scanOutgoingLinksAux
    split
    · next slug after hm =>
      intro h
      rcases List.mem_cons.mp h with rfl | h
      · exact matchOutgoingLink_spec hm
      · exact scanOutgoingLinksAux_mem h
    · intro h
      exact scanOutgoingLinksAux_mem h

/-- C8: for every content string, `extract_outgoing_links` returns distinct
slugs, each non-empty and free of the terminator characters `/`, `)`, `#`
and `?` (the slug is the path segment truncated at the first of those); in
particular, content containing both `[a](/entries/foo)` and
`[b](/entries/foo#x)` yields exactly `{"foo"}` — the duplicate collapsed and
the fragment stripped. -/
theorem c8_extract_outgoing_links_spec :
    (∀ content : List Char, (extract_outgoing_links content).Nodup ∧
      ∀ s ∈ extract_outgoing_links content,
        s ≠ [] ∧ ∀ c ∈ s, isSlugStop c = false) ∧
    extract_outgoing_links
        (str "see [a](/entries/foo) and [b](/entries/foo#x) end") =
      [str "foo"] := by
  refine ⟨fun content => ⟨?_, ?_⟩, by decide⟩
  · unfold extract_outgoing_links
    split
    · simp
    · exact List.nodup_dedup _
  · intro s hs
    unfold extract_outgoing_links at hs
    split at hs
    · simp at hs
    · exact scanOutgoingLinksAux_mem (List.mem_dedup.mp hs)

/-- Witness for C8: the universally quantified part applied to a concrete
content string and slug. -/
theorem c8_extract_outgoing_links_spec_witness :
    str "foo" ≠ [] ∧ ∀ c ∈ str "foo", isSlugStop c = false :=
  (c8_extract_outgoing_links_spec.1 (str "x [a](/entries/foo)")).2
    (str "foo") (by decide)

/-! ### C5: `Article.save` preserves the data-model invariant -/

theorem natDigitsAux_eq_digits : ∀ (fuel n : Nat), n ≤ fuel →
    natDigitsAux fuel n = Nat.digits 10 n
  | 0, n, h => by
    interval_cases n
    simp [natDigitsAux]
  | fuel + 1, 0, _ => by simp [natDigitsAux]
  | fuel + 1, n + 1, h => by
    unfold natDigitsAux
    rw [natDigitsAux_eq_digits fuel ((n + 1) / 10)
      (by
        have := Nat.div_lt_self (Nat.succ_pos n) (by norm_num : 1 < 10)
        omega)]
    rw [Nat.digits_def' (by norm_num : 1 < 10) (Nat.succ_pos n)]

theorem decode_natToChars (n : Nat) :
    Nat.ofDigits 10 ((natToChars n).reverse.map (fun c => c.toNat - 48)) = n := by
  unfold natToChars
  split
  · next h => subst h; decide
  · next h =>
    rw [natDigitsAux_eq_digits n n le_rfl]
    rw [← List.map_reverse, List.reverse_reverse, List.map_map]
    have hcongr : ∀ d ∈ Nat.digits 10 n,
        ((fun c => c.toNat - 48) ∘ fun d => Char.ofNat (48 + d)) d = id d := by
      intro d hd
      have hlt : d < 10 := Nat.digits_lt_base (by norm_num) hd
      simp only [Function.comp_apply, id_eq]
      rw [toNat_ofNat_small (by omega)]
      omega
    rw [List.map_congr_left hcongr, List.map_id]
    exact Nat.ofDigits_digits 10 n

theorem natToChars_inj {m n : Nat} (h : natToChars m = natToChars n) : m = n := by
  rw [← decode_natToChars m, ← decode_natToChars n, h]

theorem candidateSlug_ne {base : List Char} {i j : Nat} (hi : 1 ≤ i)
    (hij : i < j) : candidateSlug base i ≠ candidateSlug base j := by
  unfold candidateSlug
  by_cases hi1 : i ≤ 1
  · rw [if_pos hi1, if_neg (by omega)]
    intro h
    apply_fun List.length at h
    simp at h
  · rw [if_neg hi1, if_neg (by omega)]
    intro h
    have h2 := List.append_cancel_left h
    simp only [List.cons.injEq, true_and] at h2
    exact absurd (natToChars_inj h2) (by omega)

theorem candidateSlug_ne_nil {base : List Char} (h : base ≠ []) (i : Nat) :
    candidateSlug base i ≠ [] := by
  unfold candidateSlug
  split
  · exact h
  · simp [h]

theorem chooseSlugAux_ne_nil {taken : List (List Char)} {base : List Char}
    (h : base ≠ []) : ∀ (fuel i : Nat), chooseSlugAux taken base fuel i ≠ []
  | 0, i => candidateSlug_ne_nil h i
  | fuel + 1, i => by
    unfold chooseSlugAux
    split
    · exact chooseSlugAux_ne_nil h fuel (i + 1)
    · exact candidateSlug_ne_nil h i

theorem chooseSlugAux_spec (taken : List (List Char)) (base : List Char) :
    ∀ (fuel i : Nat),
      (∃ k, i ≤ k ∧ k ≤ i + fuel ∧ candidateSlug base k ∉ taken) →
      chooseSlugAux taken base fuel i ∉ taken
  | 0, i, ⟨k, h1, h2, h3⟩ => by
    unfold chooseSlugAux
    have : k = i := by omega
    exact this ▸ h3
  | fuel + 1, i, ⟨k, h1, h2, h3⟩ => by
    unfold chooseSlugAux
    split
    · next hmem =>
      apply chooseSlugAux_spec taken base fuel (i + 1)
      refine ⟨k, ?_, by omega, h3⟩
      rcases Nat.eq_or_lt_of_le h1 with rfl | hlt
      · exact absurd hmem h3
      · omega
    · next hmem => exact hmem

theorem exists_free_candidate (taken : List (List Char)) (base : List Char) :
    ∃ k, 1 ≤ k ∧ k ≤ taken.length + 2 ∧ candidateSlug base k ∉ taken := by
  by_contra hcon
  push_neg at hcon
  have hsub : ∀ x ∈ (List.range' 1 (taken.length + 1)).map (candidateSlug base),
      x ∈ taken := by
    intro x hx
    obtain ⟨i, hi, rfl⟩ := List.mem_map.mp hx
    have hm := List.mem_range'_1.mp hi
    exact hcon i (by omega) (by omega)
  have hnodup : ((List.range' 1 (taken.length + 1)).map (candidateSlug base)).Nodup := by
    refine (List.nodup_range' 1 (taken.length + 1)).map_on ?_
    intro i hi j hj hf
    by_contra hne
    have h1 := (List.mem_range'_1.mp hi).1
    have h2 := (List.mem_range'_1.mp hj).1
    rcases Nat.lt_or_ge i j with hlt | hge
    · exact candidateSlug_ne h1 hlt hf
    · exact candidateSlug_ne h2 (by omega) hf.symm
  have hfincard : ((List.range' 1 (taken.length + 1)).map (candidateSlug base)).toFinset.card =
      taken.length + 1 := by
    rw [List.toFinset_card_of_nodup hnodup]
    simp
  have hsubset : ((List.range' 1 (taken.length + 1)).map (candidateSlug base)).toFinset ⊆
      taken.toFinset := fun x hx =>
    List.mem_toFinset.mpr (hsub x (List.mem_toFinset.mp hx))
  have := Finset.card_le_card hsubset
  have := taken.toFinset_card_le
  omega

theorem chooseSlug_not_taken (taken : List (List Char)) (base : List Char) :
    chooseSlug taken base ∉ taken := by
  unfold chooseSlug
  apply chooseSlugAux_spec
  obtain ⟨k, h1, h2, h3⟩ := exists_free_candidate taken base
  exact ⟨k, h1, by omega, h3⟩

theorem savedArticle_slug_ne_nil {nfkc nfkd : List Char → List Char}
    {uuid : List Char} {a : ArticleRow} {rows : List ArticleRow} :
    (savedArticle nfkc nfkd uuid a rows).slug ≠ [] := by
  unfold savedArticle saveSlug
  split
  · apply chooseSlugAux_ne_nil
    split
    · simp [str]
    · next h => exact h
  · next h => exact h

theorem savedArticle_slug_free {nfkc nfkd : List Char → List Char}
    {uuid : List Char} {a : ArticleRow} {rows : List ArticleRow}
    (hold : a.slug = [] ∨
      a.slug ∉ (rows.filter (fun b => b.pk ≠ a.pk)).map (fun b => b.slug)) :
    (savedArticle nfkc nfkd uuid a rows).slug ∉
      (rows.filter (fun b => b.pk ≠ a.pk)).map (fun b => b.slug) := by
  unfold savedArticle saveSlug
  split
  · exact chooseSlug_not_taken _ _
  · next h =>
    rcases hold with h0 | h0
    · exact absurd h0 h
    · exact h0

theorem nodup_update_slugs {rows : List ArticleRow} {pk0 : Nat} {a2 : ArticleRow}
    (hpk : (rows.map (fun b => b.pk)).Nodup)
    (hothers : ((rows.filter (fun b => b.pk ≠ pk0)).map (fun b => b.slug)).Nodup)
    (hnew : a2.slug ∉ (rows.filter (fun b => b.pk ≠ pk0)).map (fun b => b.slug)) :
    ((rows.map (fun b => if b.pk = pk0 then a2 else b)).map
      (fun b => b.slug)).Nodup := by
  induction rows with
  | nil => simp
  | cons b rows ih =>
    rw [List.map_cons, List.nodup_cons] at hpk
    rw [List.map_cons, List.map_cons, List.nodup_cons]
    by_cases hb : b.pk = pk0
    · rw [List.filter_cons_of_neg (by simp [hb])] at hothers hnew
      have hnotin : ∀ c ∈ rows, c.pk ≠ pk0 := by
        intro c hc h0
        exact hpk.1 (by rw [hb, ← h0]; exact List.mem_map_of_mem _ hc)
      have hfil : rows.filter (fun c => decide (c.pk ≠ pk0)) = rows :=
        List.filter_eq_self.mpr (fun c hc => by simp [hnotin c hc])
      rw [hfil] at hothers hnew
      have hrows_id : rows.map (fun c => if c.pk = pk0 then a2 else c) = rows := by
        have hcongr : ∀ c ∈ rows, (if c.pk = pk0 then a2 else c) = id c :=
          fun c hc => by rw [if_neg (hnotin c hc), id_eq]
        rw [List.map_congr_left hcongr, List.map_id]
      rw [if_pos hb, hrows_id]
      exact ⟨hnew, hothers⟩
    · rw [List.filter_cons_of_pos (by simp [hb])] at hothers hnew
      rw [List.map_cons, List.nodup_cons] at hothers
      rw [List.map_cons, List.mem_cons] at hnew
      push_neg at hnew
      rw [if_neg hb]
      refine ⟨?_, ih hpk.2 hothers.2 hnew.2⟩
      intro hmem
      rw [List.map_map] at hmem
      obtain ⟨c, hc, he⟩ := List.mem_map.mp hmem
      simp only [Function.comp_apply] at he
      by_cases hcpk : c.pk = pk0
      · rw [if_pos hcpk] at he
        exact hnew.1 he
      · rw [if_neg hcpk] at he
        apply hothers.1
        rw [← he]
        exact List.mem_map_of_mem _ (List.mem_filter.mpr ⟨hc, by simp [hcpk]⟩)

/-- C5: after any `Article.save`, the saved row's slug is non-empty (a
random fallback slug is synthesized when the title slugifies to nothing, and
numeric suffixes avoid collisions), its `outgoing_links` equals the links
extracted from its current content with no staleness window, and the table's
slugs remain pairwise distinct.  The hypotheses state the database
invariants in force before the save: distinct primary keys, distinct slugs,
and — reflecting that `slug` is immutable once set and unique — a non-empty
pre-existing slug does not collide with another row's. -/
theorem c5_article_save_invariant (nfkc nfkd : List Char → List Char)
    (uuid : List Char) (a : ArticleRow) (rows : List ArticleRow)
    (hpk : (rows.map (fun b => b.pk)).Nodup)
    (hslugs : (rows.map (fun b => b.slug)).Nodup)
    (hold : a.slug = [] ∨
      a.slug ∉ (rows.filter (fun b => b.pk ≠ a.pk)).map (fun b => b.slug)) :
    (articleSave nfkc nfkd uuid a rows).1.slug ≠ [] ∧
    (articleSave nfkc nfkd uuid a rows).1.outgoing =
      extract_outgoing_links (articleSave nfkc nfkd uuid a rows).1.content ∧
    ((articleSave nfkc nfkd uuid a rows).2.map (fun b => b.slug)).Nodup := by
  have hfst : (articleSave nfkc nfkd uuid a rows).1 =
      savedArticle nfkc nfkd uuid a rows := by
    unfold articleSave
    split <;> rfl
  refine ⟨by rw [hfst]; exact savedArticle_slug_ne_nil, ?_, ?_⟩
  · rw [hfst]
    rfl
  · have hfree := @savedArticle_slug_free nfkc nfkd uuid a rows hold
    unfold articleSave
    split
    · next hup =>
      have hoth : ((rows.filter (fun b => b.pk ≠ a.pk)).map
          (fun b => b.slug)).Nodup :=
        List.Nodup.sublist ((List.filter_sublist rows).map (fun b => b.slug)) hslugs
      exact nodup_update_slugs hpk hoth hfree
    · next hup =>
      have hnotin : ∀ b ∈ rows, b.pk ≠ a.pk := by
        intro b hb h0
        exact hup (List.any_eq_true.mpr ⟨b, hb, by simp [h0]⟩)
      have hall : rows.filter (fun b => b.pk ≠ a.pk) = rows :=
        List.filter_eq_self.mpr (fun b hb => by simp [hnotin b hb])
      rw [hall] at hfree
      rw [List.map_append, List.nodup_append]
      refine ⟨hslugs, by simp, ?_⟩
      intro x hx
      simp only [List.map_cons, List.map_nil, List.mem_singleton]
      intro h0
      exact hfree (h0 ▸ hx)

/-- Witness for C5 at a concrete collision scenario: a new row (pk 2, empty
slug, title "X", content linking to /entries/y) saved into a table already
holding slug "x"; the saved slug becomes "x-2". -/
theorem c5_article_save_invariant_witness :
    ((([⟨1, str "X", str "x", str "", str "", [], 0⟩] : List ArticleRow).map
        (fun b => b.pk)).Nodup ∧
      (([⟨1, str "X", str "x", str "", str "", [], 0⟩] : List ArticleRow).map
        (fun b => b.slug)).Nodup ∧
      (([] : List Char) = [] ∨
        ([] : List Char) ∉ (([⟨1, str "X", str "x", str "", str "", [], 0⟩] :
          List ArticleRow).filter (fun b => b.pk ≠ 2)).map (fun b => b.slug))) ∧
    ((articleSave id id (str "u") ⟨2, str "X", [], str "[a](/entries/y)", str "", [], 0⟩
        [⟨1, str "X", str "x", str "", str "", [], 0⟩]).1.slug ≠ [] ∧
      (articleSave id id (str "u") ⟨2, str "X", [], str "[a](/entries/y)", str "", [], 0⟩
        [⟨1, str "X", str "x", str "", str "", [], 0⟩]).1.outgoing =
        extract_outgoing_links
          ((articleSave id id (str "u") ⟨2, str "X", [], str "[a](/entries/y)", str "", [], 0⟩
            [⟨1, str "X", str "x", str "", str "", [], 0⟩]).1.content) ∧
      (((articleSave id id (str "u") ⟨2, str "X", [], str "[a](/entries/y)", str "", [], 0⟩
        [⟨1, str "X", str "x", str "", str "", [], 0⟩]).2.map (fun b => b.slug)).Nodup)) :=
  ⟨⟨by decide, by decide, Or.inl rfl⟩,
    c5_article_save_invariant id id (str "u")
      ⟨2, str "X", [], str "[a](/entries/y)", str "", [], 0⟩
      [⟨1, str "X", str "x", str "", str "", [], 0⟩]
      (by decide) (by decide) (Or.inl rfl)⟩

/-! ### C1: lock acquisition -/

theorem mem_unexpiredLocks {now : Nat} {locks : List LockRow} {r : LockRow} :
    r ∈ unexpiredLocks now locks ↔ r ∈ locks ∧ ¬ r.expiresAt < now := by
  unfold unexpiredLocks
  rw [List.mem_filter]
  simp

theorem unexpired_slug_nodup {now : Nat} {locks : List LockRow}
    (h : (locks.map (fun r => r.slug)).Nodup) :
    ((unexpiredLocks now locks).map (fun r => r.slug)).Nodup :=
  List.Nodup.sublist ((List.filter_sublist locks).map (fun r => r.slug)) h

theorem acquire_eq_of_find_some {now ttl : Nat} {token slug title : List Char}
    {db : Db} {ex : LockRow}
    (hfind : (unexpiredLocks now db.locks).find? (fun r => r.slug = slug) = some ex) :
    acquireArticleCreationLock now ttl token slug title db =
      if now < ex.expiresAt then Except.error (ex.slug, ex.title)
      else Except.ok { db with locks := (unexpiredLocks now db.locks).map (fun r =>
        if r.pk = ex.pk then
          { r with title := title, token := token, expiresAt := now + ttl }
        else r) } := by
  unfold acquireArticleCreationLock
  rw [hfind]

theorem acquire_eq_of_find_none {now ttl : Nat} {token slug title : List Char}
    {db : Db}
    (hfind : (unexpiredLocks now db.locks).find? (fun r => r.slug = slug) = none) :
    acquireArticleCreationLock now ttl token slug title db =
      Except.ok { db with
        locks := unexpiredLocks now db.locks ++
          [⟨db.nextLockPk, slug, title, token, now + ttl⟩],
        nextLockPk := db.nextLockPk + 1 } := by
  unfold acquireArticleCreationLock
  rw [hfind]

/-- C1 counterexample: with a single lock row (primary key 0) for slug "s"
whose `expires_at` is 5, strictly in the past of `now = 6`, acquisition
succeeds but does NOT overwrite that row in place: the stale row is purged
by the opportunistic cleanup and a brand-new row with the next primary key 1
is inserted, so "no new row" fails (the surviving row's primary key differs
from the old one, and the auto-increment counter advanced). -/
theorem c1_lock_expired_row_replaced :
    acquireArticleCreationLock 6 300 (str "k2") (str "s") (str "t2")
        ⟨[], [⟨0, str "s", str "t1", str "k1", 5⟩], 0, 1⟩ =
      Except.ok ⟨[], [⟨1, str "s", str "t2", str "k2", 306⟩], 0, 2⟩ ∧
    (∀ r ∈ [(⟨1, str "s", str "t2", str "k2", 306⟩ : LockRow)], r.pk ≠ 0) := by
  constructor
  · rfl
  · decide

/-- C1 (amended): acquisition fails with `ArticleCreationInProgress`
carrying the slug and the existing lock's title exactly when a lock row for
that slug exists whose `expires_at` is strictly later than `now` (on failure
the transaction rolls back, leaving the table unchanged).  A row whose
`expires_at` equals `now` — expired, but surviving the strict-inequality
cleanup — is overwritten in place (same primary key) with the new title,
token and expiry.  A row whose `expires_at` is strictly in the past is
purged, and acquisition inserts a fresh row with a new primary key carrying
the fresh token. -/
theorem c1_lock_acquisition_amended (now ttl : Nat) (token slug title : List Char)
    (db : Db) (hnod : (db.locks.map (fun r => r.slug)).Nodup) :
    ((∀ e, acquireArticleCreationLock now ttl token slug title db =
        Except.error e →
        ∃ r ∈ db.locks, r.slug = slug ∧ now < r.expiresAt ∧ e = (slug, r.title)) ∧
      ((∃ r ∈ db.locks, r.slug = slug ∧ now < r.expiresAt) →
        ∃ r ∈ db.locks, r.slug = slug ∧ now < r.expiresAt ∧
          acquireArticleCreationLock now ttl token slug title db =
            Except.error (slug, r.title))) ∧
    (∀ r ∈ db.locks, r.slug = slug → r.expiresAt = now →
      acquireArticleCreationLock now ttl token slug title db =
        Except.ok { db with locks := (unexpiredLocks now db.locks).map (fun q =>
          if q.pk = r.pk then
            { q with title := title, token := token, expiresAt := now + ttl }
          else q) }) ∧
    ((∀ r ∈ db.locks, r.slug = slug → r.expiresAt < now) →
      acquireArticleCreationLock now ttl token slug title db =
        Except.ok { db with
          locks := unexpiredLocks now db.locks ++
            [⟨db.nextLockPk, slug, title, token, now + ttl⟩],
          nextLockPk := db.nextLockPk + 1 }) := by
  have huniq : ∀ {ex r : LockRow}, ex ∈ unexpiredLocks now db.locks →
      r ∈ unexpiredLocks now db.locks → ex.slug = slug → r.slug = slug → ex = r := by
    intro ex r hex hr he hrs
    exact List.inj_on_of_nodup_map (unexpired_slug_nodup hnod) hex hr
      (he.trans hrs.symm)
  refine ⟨⟨?_, ?_⟩, ?_, ?_⟩
  · intro e he
    cases hfind : (unexpiredLocks now db.locks).find? (fun r => r.slug = slug) with
    | none =>
      rw [acquire_eq_of_find_none hfind] at he
      exact Except.noConfusion he
    | some ex =>
      rw [acquire_eq_of_find_some hfind] at he
      have hexm := List.mem_of_find?_eq_some hfind
      have hexs : ex.slug = slug := by simpa using List.find?_some hfind
      split at he
      · next hlt =>
        simp only [Except.error.injEq] at he
        exact ⟨ex, (mem_unexpiredLocks.mp hexm).1, hexs, hlt, by rw [← he, hexs]⟩
      · exact Except.noConfusion he
  · rintro ⟨r, hr, hrs, hrt⟩
    have hrk : r ∈ unexpiredLocks now db.locks :=
      mem_unexpiredLocks.mpr ⟨hr, by omega⟩
    cases hfind : (unexpiredLocks now db.locks).find? (fun r => r.slug = slug) with
    | none =>
      rw [List.find?_eq_none] at hfind
      exact absurd (by simpa using hrs) (hfind r hrk)
    | some ex =>
      have hexm := List.mem_of_find?_eq_some hfind
      have hexs : ex.slug = slug := by simpa using List.find?_some hfind
      obtain rfl := huniq hexm hrk hexs hrs
      rw [acquire_eq_of_find_some hfind, if_pos hrt]
      exact ⟨ex, hr, hrs, hrt, by rw [hexs]⟩
  · intro r hr hrs hre
    have hrk : r ∈ unexpiredLocks now db.locks :=
      mem_unexpiredLocks.mpr ⟨hr, by omega⟩
    cases hfind : (unexpiredLocks now db.locks).find? (fun q => q.slug = slug) with
    | none =>
      rw [List.find?_eq_none] at hfind
      exact absurd (by simpa using hrs) (hfind r hrk)
    | some ex =>
      have hexm := List.mem_of_find?_eq_some hfind
      have hexs : ex.slug = slug := by simpa using List.find?_some hfind
      obtain rfl := huniq hexm hrk hexs hrs
      rw [acquire_eq_of_find_some hfind, if_neg (by omega)]
  · intro hall
    have hfind : (unexpiredLocks now db.locks).find? (fun q => q.slug = slug) = none := by
      rw [List.find?_eq_none]
      intro q hq
      obtain ⟨hqm, hqe⟩ := mem_unexpiredLocks.mp hq
      simp only [decide_eq_true_eq]
      intro hqs
      exact hqe (hall q hqm hqs)
    rw [acquire_eq_of_find_none hfind]

/-- Witness for C1 at a table holding one live lock for slug "s": the
acquisition attempt fails with the stored title. -/
theorem c1_lock_acquisition_amended_witness :
    (([⟨0, str "s", str "t1", str "k1", 9⟩] : List LockRow).map
      (fun r => r.slug)).Nodup ∧
    (∃ r ∈ ([⟨0, str "s", str "t1", str "k1", 9⟩] : List LockRow),
      r.slug = str "s" ∧ 6 < r.expiresAt ∧
      acquireArticleCreationLock 6 300 (str "k2") (str "s") (str "t2")
          ⟨[], [⟨0, str "s", str "t1", str "k1", 9⟩], 0, 1⟩ =
        Except.error (str "s", r.title)) :=
  ⟨by decide,
    (c1_lock_acquisition_amended 6 300 (str "k2") (str "s") (str "t2")
        ⟨[], [⟨0, str "s", str "t1", str "k1", 9⟩], 0, 1⟩ (by decide)).1.2
      ⟨⟨0, str "s", str "t1", str "k1", 9⟩, by decide, by decide, by decide⟩⟩

/-! ### Service layer: shared lemmas -/

theorem refreshSummary_locks (cs : List Char) (ex : ArticleRow) (db : Db) :
    (refreshSummary cs ex db).2.locks = db.locks := by
  unfold refreshSummary
  split <;> rfl

theorem refreshResult_fst (cs : List Char) (ex : ArticleRow) (db : Db) :
    (refreshResult cs ex db).1 =
      Except.ok ((refreshSummary cs ex db).1, false) := rfl

theorem refreshResult_snd (cs : List Char) (ex : ArticleRow) (db : Db) :
    (refreshResult cs ex db).2 = (refreshSummary cs ex db).2 := rfl

theorem lookupSlug_some {slug : List Char} {arts : List ArticleRow} {ex : ArticleRow}
    (h : lookupSlug slug arts = some ex) : ex ∈ arts ∧ ex.slug = slug :=
  ⟨List.mem_of_find?_eq_some h, by simpa using List.find?_some h⟩

theorem lookupTitle_mem {t : List Char} {arts : List ArticleRow} {ex : ArticleRow}
    (h : lookupTitle t arts = some ex) : ex ∈ arts :=
  List.mem_of_find?_eq_some h

theorem lookupAndRefresh_some {cs slug : List Char} {db : Db}
    {res : (Except ServiceError (ArticleRow × Bool)) × Db}
    (h : lookupAndRefresh cs slug db = some res) :
    ∃ ex, lookupSlug slug db.articles = some ex ∧ res = refreshResult cs ex db := by
  unfold lookupAndRefresh at h
  split at h
  next ex heq => exact ⟨ex, heq, (Option.some.inj h).symm⟩
  next heq => exact Option.noConfusion h

theorem lookupAndRefresh_none {cs slug : List Char} {db : Db}
    (h : lookupSlug slug db.articles = none) :
    lookupAndRefresh cs slug db = none := by
  unfold lookupAndRefresh
  rw [h]

theorem lookupSlug_of_refresh_none {cs slug : List Char} {db : Db}
    (h : lookupAndRefresh cs slug db = none) :
    lookupSlug slug db.articles = none := by
  unfold lookupAndRefresh at h
  split at h
  next ex heq => exact Option.noConfusion h
  next heq => exact heq

theorem unexpired_pk_nodup {now : Nat} {locks : List LockRow}
    (h : (locks.map (fun r => r.pk)).Nodup) :
    ((unexpiredLocks now locks).map (fun r => r.pk)).Nodup :=
  List.Nodup.sublist ((List.filter_sublist locks).map (fun r => r.pk)) h

theorem acquire_ok_frame {now ttl : Nat} {token slug title : List Char} {db db1 : Db}
    (h : acquireArticleCreationLock now ttl token slug title db = Except.ok db1) :
    db1.articles = db.articles ∧ db1.nextArticlePk = db.nextArticlePk := by
  cases hfind : (unexpiredLocks now db.locks).find? (fun r => r.slug = slug) with
  | some ex =>
    rw [acquire_eq_of_find_some hfind] at h
    split at h
    · exact Except.noConfusion h
    · obtain rfl := Except.ok.inj h
      exact ⟨rfl, rfl⟩
  | none =>
    rw [acquire_eq_of_find_none hfind] at h
    obtain rfl := Except.ok.inj h
    exact ⟨rfl, rfl⟩

theorem acquire_ok_locks_mem {now ttl : Nat} {token slug title : List Char} {db db1 : Db}
    (hpk : (db.locks.map (fun r => r.pk)).Nodup)
    (h : acquireArticleCreationLock now ttl token slug title db = Except.ok db1) :
    ∀ r ∈ db1.locks, r ∈ db.locks ∨ (r.slug = slug ∧ r.token = token) := by
  cases hfind : (unexpiredLocks now db.locks).find? (fun r => r.slug = slug) with
  | some ex =>
    rw [acquire_eq_of_find_some hfind] at h
    split at h
    · exact Except.noConfusion h
    · obtain rfl := Except.ok.inj h
      intro r hr
      have hr' : r ∈ (unexpiredLocks now db.locks).map (fun q =>
          if q.pk = ex.pk then
            { q with title := title, token := token, expiresAt := now + ttl }
          else q) := hr
      obtain ⟨q, hq, rfl⟩ := List.mem_map.mp hr'
      by_cases hpkq : q.pk = ex.pk
      · have hexm := List.mem_of_find?_eq_some hfind
        obtain rfl := List.inj_on_of_nodup_map (unexpired_pk_nodup hpk) hq hexm hpkq
        rw [if_pos hpkq]
        exact Or.inr ⟨by simpa using List.find?_some hfind, rfl⟩
      · rw [if_neg hpkq]
        exact Or.inl (mem_unexpiredLocks.mp hq).1
  | none =>
    rw [acquire_eq_of_find_none hfind] at h
    obtain rfl := Except.ok.inj h
    intro r hr
    have hr' : r ∈ unexpiredLocks now db.locks ++
        [⟨db.nextLockPk, slug, title, token, now + ttl⟩] := hr
    rcases List.mem_append.mp hr' with hm | hm
    · exact Or.inl (mem_unexpiredLocks.mp hm).1
    · obtain rfl := List.mem_singleton.mp hm
      exact Or.inr ⟨rfl, rfl⟩

theorem release_locks_mem {slug token : List Char} {db : Db} {r : LockRow}
    (hr : r ∈ (releaseArticleCreationLock slug token db).locks) :
    r ∈ db.locks ∧ ¬ (r.slug = slug ∧ r.token = token) := by
  have hr' : r ∈ db.locks.filter (fun q => ¬ (q.slug = slug ∧ q.token = token)) := hr
  have h2 := List.mem_filter.mp hr'
  exact ⟨h2.1, of_decide_eq_true h2.2⟩

theorem createInLock_locks (env : ServiceEnv) (t cs b : List Char) (db1 : Db) :
    (createInLock env t cs b db1).2.locks = db1.locks := by
  unfold createInLock
  split
  · exact refreshSummary_locks _ _ _
  · split
    · rfl
    · split
      · exact refreshSummary_locks _ _ _
      · rfl

theorem createInLock_error_db {env : ServiceEnv} {t cs b : List Char} {db1 db2 : Db}
    {e : ServiceError}
    (h : createInLock env t cs b db1 = (Except.error e, db2)) :
    e = ServiceError.generationFailed ∧ db2 = db1 := by
  unfold createInLock at h
  split at h
  · simp [refreshResult] at h
  · split at h
    · rw [Prod.mk.injEq] at h
      exact ⟨(Except.error.inj h.1).symm, h.2.symm⟩
    · split at h
      · simp [refreshResult] at h
      · rw [Prod.mk.injEq] at h
        exact absurd h.1 (by simp)

theorem locked_eq_of_acquire_error (env : ServiceEnv) (t cs b : List Char) (db : Db)
    {e : List Char × List Char}
    (h : acquireArticleCreationLock env.now env.ttl env.uuidToken b t db =
      Except.error e) :
    getOrCreateLocked env t cs b db =
      (Except.error (ServiceError.creationInProgress e.1 e.2), db) := by
  unfold getOrCreateLocked
  rw [h]

theorem locked_eq_of_acquire_ok (env : ServiceEnv) (t cs b : List Char) (db : Db)
    {db1 : Db}
    (h : acquireArticleCreationLock env.now env.ttl env.uuidToken b t db =
      Except.ok db1) :
    getOrCreateLocked env t cs b db =
      ((createInLock env t cs b db1).1,
        releaseArticleCreationLock b env.uuidToken (createInLock env t cs b db1).2) := by
  unfold getOrCreateLocked
  rw [h]

theorem getOrCreate_eq_blank (env : ServiceEnv) (topic : List Char)
    (sh slh : Option (List Char)) (db : Db) (h : pyStrip topic = []) :
    getOrCreateArticle env topic sh slh db =
      (Except.error ServiceError.valueError, db) := by
  unfold getOrCreateArticle
  rw [if_pos h]

theorem getOrCreate_eq_title (env : ServiceEnv) (topic : List Char)
    (sh slh : Option (List Char)) (db : Db) {ex : ArticleRow}
    (h0 : ¬ pyStrip topic = [])
    (h1 : lookupTitle (pyStrip topic) db.articles = some ex) :
    getOrCreateArticle env topic sh slh db =
      refreshResult (pyStrip (sh.getD [])) ex db := by
  unfold getOrCreateArticle
  rw [if_neg h0, h1]

theorem getOrCreate_eq_hint (env : ServiceEnv) (topic : List Char)
    (sh slh : Option (List Char)) (db : Db)
    {r : (Except ServiceError (ArticleRow × Bool)) × Db}
    (h0 : ¬ pyStrip topic = [])
    (h1 : lookupTitle (pyStrip topic) db.articles = none)
    (h2 : (if hintSlug env.nfkc env.nfkd slh ≠ [] then
        lookupAndRefresh (pyStrip (sh.getD [])) (hintSlug env.nfkc env.nfkd slh) db
      else none) = some r) :
    getOrCreateArticle env topic sh slh db = r := by
  unfold getOrCreateArticle
  rw [if_neg h0, h1, h2]

theorem getOrCreate_eq_base (env : ServiceEnv) (topic : List Char)
    (sh slh : Option (List Char)) (db : Db)
    {r : (Except ServiceError (ArticleRow × Bool)) × Db}
    (h0 : ¬ pyStrip topic = [])
    (h1 : lookupTitle (pyStrip topic) db.articles = none)
    (h2 : (if hintSlug env.nfkc env.nfkd slh ≠ [] then
        lookupAndRefresh (pyStrip (sh.getD [])) (hintSlug env.nfkc env.nfkd slh) db
      else none) = none)
    (h3 : lookupAndRefresh (pyStrip (sh.getD []))
        (baseSlugOf env (pyStrip topic) slh) db = some r) :
    getOrCreateArticle env topic sh slh db = r := by
  unfold getOrCreateArticle
  rw [if_neg h0, h1, h2, h3]

theorem getOrCreate_eq_quota (env : ServiceEnv) (topic : List Char)
    (sh slh : Option (List Char)) (db : Db)
    (h0 : ¬ pyStrip topic = [])
    (h1 : lookupTitle (pyStrip topic) db.articles = none)
    (h2 : (if hintSlug env.nfkc env.nfkd slh ≠ [] then
        lookupAndRefresh (pyStrip (sh.getD [])) (hintSlug env.nfkc env.nfkd slh) db
      else none) = none)
    (h3 : lookupAndRefresh (pyStrip (sh.getD []))
        (baseSlugOf env (pyStrip topic) slh) db = none)
    (h4 : env.dailyLimit ≤ countToday env.today db.articles) :
    getOrCreateArticle env topic sh slh db =
      (Except.error ServiceError.dailyLimitExceeded, db) := by
  unfold getOrCreateArticle
  rw [if_neg h0, h1, h2, h3, if_pos h4]

theorem getOrCreate_eq_locked (env : ServiceEnv) (topic : List Char)
    (sh slh : Option (List Char)) (db : Db)
    (h0 : ¬ pyStrip topic = [])
    (h1 : lookupTitle (pyStrip topic) db.articles = none)
    (h2 : (if hintSlug env.nfkc env.nfkd slh ≠ [] then
        lookupAndRefresh (pyStrip (sh.getD [])) (hintSlug env.nfkc env.nfkd slh) db
      else none) = none)
    (h3 : lookupAndRefresh (pyStrip (sh.getD []))
        (baseSlugOf env (pyStrip topic) slh) db = none)
    (h4 : ¬ env.dailyLimit ≤ countToday env.today db.articles) :
    getOrCreateArticle env topic sh slh db =
      getOrCreateLocked env (pyStrip topic) (pyStrip (sh.getD []))
        (baseSlugOf env (pyStrip topic) slh) db := by
  unfold getOrCreateArticle
  rw [if_neg h0, h1, h2, h3, if_neg h4]

theorem locked_locks_and_error (env : ServiceEnv) (t cs b : List Char) (db : Db)
    (hfresh : ∀ r ∈ db.locks, r.token ≠ env.uuidToken)
    (hpk : (db.locks.map (fun r => r.pk)).Nodup) :
    (∀ r ∈ (getOrCreateLocked env t cs b db).2.locks, r.token ≠ env.uuidToken) ∧
    (∀ e, (getOrCreateLocked env t cs b db).1 = Except.error e →
      (getOrCreateLocked env t cs b db).2.articles = db.articles) := by
  cases hacq : acquireArticleCreationLock env.now env.ttl env.uuidToken b t db with
  | error e =>
    rw [locked_eq_of_acquire_error env t cs b db hacq]
    exact ⟨hfresh, fun e' he' => rfl⟩
  | ok db1 =>
    rw [locked_eq_of_acquire_ok env t cs b db hacq]
    rcases hc : createInLock env t cs b db1 with ⟨res, db2⟩
    constructor
    · intro r hr
      have hr' : r ∈ (releaseArticleCreationLock b env.uuidToken db2).locks := hr
      obtain ⟨hmem, hnot⟩ := release_locks_mem hr'
      have hl : db2.locks = db1.locks := by
        have h2 := createInLock_locks env t cs b db1
        rw [hc] at h2
        exact h2
      rw [hl] at hmem
      rcases acquire_ok_locks_mem hpk hacq r hmem with hm | ⟨hs, ht⟩
      · exact hfresh r hm
      · exact fun _ => hnot ⟨hs, ht⟩
    · intro e he
      have he2 : res = Except.error e := he
      subst he2
      obtain ⟨-, hdb⟩ := createInLock_error_db hc
      rw [hdb]
      exact (acquire_ok_frame hacq).1

theorem locked_not_created {env : ServiceEnv} {t cs b : List Char} {db : Db}
    {a : ArticleRow}
    (hb : lookupSlug b db.articles = none)
    (h : (getOrCreateLocked env t cs b db).1 = Except.ok (a, false)) : False := by
  cases hacq : acquireArticleCreationLock env.now env.ttl env.uuidToken b t db with
  | error e =>
    rw [locked_eq_of_acquire_error env t cs b db hacq] at h
    exact Except.noConfusion h
  | ok db1 =>
    rw [locked_eq_of_acquire_ok env t cs b db hacq] at h
    have hb1 : lookupSlug b db1.articles = none := by
      rw [(acquire_ok_frame hacq).1]
      exact hb
    have h' : (createInLock env t cs b db1).1 = Except.ok (a, false) := h
    unfold createInLock at h'
    split at h'
    next ex hex =>
      rw [hb1] at hex
      exact Option.noConfusion hex
    next hnone =>
      split at h'
      · simp at h'
      · split at h'
        next ex2 hex2 =>
          exact Option.noConfusion hex2
        next hnone2 =>
          simp at h'

theorem createInLock_creates {env : ServiceEnv} {t cs b : List Char} {db1 : Db}
    (hb : lookupSlug b db1.articles = none) {c : List Char}
    (hg : env.gen t (if cs = [] then none else some cs)
        (collectIncomingLinkBriefings env.nfc env.combining db1.articles b 2 2 5) =
      Except.ok c) :
    createInLock env t cs b db1 =
      (Except.ok
        (⟨db1.nextArticlePk, t, b, c, cs, extract_outgoing_links c, env.today⟩, true),
       { db1 with
          articles := db1.articles ++
            [⟨db1.nextArticlePk, t, b, c, cs, extract_outgoing_links c, env.today⟩],
          nextArticlePk := db1.nextArticlePk + 1 }) := by
  unfold createInLock
  rw [hb, hg]

theorem countToday_snoc {today : Nat} {l : List ArticleRow} {a : ArticleRow}
    (h : a.createdDay = today) :
    countToday today (l ++ [a]) = countToday today l + 1 := by
  unfold countToday
  rw [List.filter_append]
  simp [h]

theorem locked_creates (env : ServiceEnv) (t cs b : List Char) (db : Db)
    (hb : lookupSlug b db.articles = none)
    (hnolock : ∀ r ∈ db.locks, r.slug ≠ b)
    (hgen : ∀ s os bs, ∃ c, env.gen s os bs = Except.ok c) :
    ∃ a : ArticleRow, (getOrCreateLocked env t cs b db).1 = Except.ok (a, true) ∧
      (getOrCreateLocked env t cs b db).2.articles = db.articles ++ [a] ∧
      a.createdDay = env.today := by
  have hfind : (unexpiredLocks env.now db.locks).find? (fun r => r.slug = b) = none := by
    rw [List.find?_eq_none]
    intro q hq
    simpa using hnolock q (mem_unexpiredLocks.mp hq).1
  cases hacq : acquireArticleCreationLock env.now env.ttl env.uuidToken b t db with
  | error e =>
    rw [acquire_eq_of_find_none hfind] at hacq
    exact Except.noConfusion hacq
  | ok db1 =>
    have hfr := acquire_ok_frame hacq
    rw [locked_eq_of_acquire_ok env t cs b db hacq]
    have hb1 : lookupSlug b db1.articles = none := by
      rw [hfr.1]
      exact hb
    obtain ⟨c, hc⟩ := hgen t (if cs = [] then none else some cs)
      (collectIncomingLinkBriefings env.nfc env.combining db1.articles b 2 2 5)
    rw [createInLock_creates hb1 hc]
    refine ⟨⟨db1.nextArticlePk, t, b, c, cs, extract_outgoing_links c, env.today⟩,
      rfl, ?_, rfl⟩
    show db1.articles ++ _ = db.articles ++ _
    rw [hfr.1]

/-- C2: with every stored lock token distinct from this call's fresh token
and well-formed lock primary keys, after any `get_or_create_article` call no
lock row carrying the call's token remains (the `finally` release runs on
every exit path after acquisition), and every failing call leaves the
article table exactly as it was — in particular a generation failure leaves
no partial article behind. -/
theorem c2_lock_released_no_partial_article (env : ServiceEnv) (topic : List Char)
    (summaryHint slugHint : Option (List Char)) (db : Db)
    (hfresh : ∀ r ∈ db.locks, r.token ≠ env.uuidToken)
    (hpk : (db.locks.map (fun r => r.pk)).Nodup) :
    (∀ r ∈ (getOrCreateArticle env topic summaryHint slugHint db).2.locks,
      r.token ≠ env.uuidToken) ∧
    (∀ e, (getOrCreateArticle env topic summaryHint slugHint db).1 = Except.error e →
      (getOrCreateArticle env topic summaryHint slugHint db).2.articles =
        db.articles) := by
  by_cases h0 : pyStrip topic = []
  · rw [getOrCreate_eq_blank env topic summaryHint slugHint db h0]
    exact ⟨hfresh, fun e he => rfl⟩
  · cases h1 : lookupTitle (pyStrip topic) db.articles with
    | some ex =>
      rw [getOrCreate_eq_title env topic summaryHint slugHint db h0 h1]
      constructor
      · intro r hr
        have hr' : r ∈ ((refreshSummary (pyStrip (summaryHint.getD [])) ex db).2).locks := hr
        rw [refreshSummary_locks] at hr'
        exact hfresh r hr'
      · intro e he
        rw [refreshResult_fst] at he
        exact Except.noConfusion he
    | none =>
      cases h2 : (if hintSlug env.nfkc env.nfkd slugHint ≠ [] then
          lookupAndRefresh (pyStrip (summaryHint.getD []))
            (hintSlug env.nfkc env.nfkd slugHint) db
        else none) with
      | some r =>
        rw [getOrCreate_eq_hint env topic summaryHint slugHint db h0 h1 h2]
        have h2' : lookupAndRefresh (pyStrip (summaryHint.getD []))
            (hintSlug env.nfkc env.nfkd slugHint) db = some r := by
          split at h2
          · exact h2
          · exact Option.noConfusion h2
        obtain ⟨ex, hlk, rfl⟩ := lookupAndRefresh_some h2'
        constructor
        · intro q hq
          have hq' : q ∈ ((refreshSummary (pyStrip (summaryHint.getD [])) ex db).2).locks := hq
          rw [refreshSummary_locks] at hq'
          exact hfresh q hq'
        · intro e he
          rw [refreshResult_fst] at he
          exact Except.noConfusion he
      | none =>
        cases h3 : lookupAndRefresh (pyStrip (summaryHint.getD []))
            (baseSlugOf env (pyStrip topic) slugHint) db with
        | some r =>
          rw [getOrCreate_eq_base env topic summaryHint slugHint db h0 h1 h2 h3]
          obtain ⟨ex, hlk, rfl⟩ := lookupAndRefresh_some h3
          constructor
          · intro q hq
            have hq' : q ∈ ((refreshSummary (pyStrip (summaryHint.getD [])) ex db).2).locks := hq
            rw [refreshSummary_locks] at hq'
            exact hfresh q hq'
          · intro e he
            rw [refreshResult_fst] at he
            exact Except.noConfusion he
        | none =>
          by_cases h4 : env.dailyLimit ≤ countToday env.today db.articles
          · rw [getOrCreate_eq_quota env topic summaryHint slugHint db h0 h1 h2 h3 h4]
            exact ⟨hfresh, fun e he => rfl⟩
          · rw [getOrCreate_eq_locked env topic summaryHint slugHint db h0 h1 h2 h3 h4]
            exact locked_locks_and_error env (pyStrip topic)
              (pyStrip (summaryHint.getD []))
              (baseSlugOf env (pyStrip topic) slugHint) db hfresh hpk

/-- Witness for C2 on an empty database with an always-failing generator:
the call leaves no lock row with the fresh token and the article table
unchanged on failure. -/
theorem c2_lock_released_no_partial_article_witness :
    (∀ r ∈ (getOrCreateArticle envA (str "Mercury") none none ⟨[], [], 1, 1⟩).2.locks,
      r.token ≠ envA.uuidToken) ∧
    (∀ e, (getOrCreateArticle envA (str "Mercury") none none ⟨[], [], 1, 1⟩).1 =
        Except.error e →
      (getOrCreateArticle envA (str "Mercury") none none ⟨[], [], 1, 1⟩).2.articles =
        (⟨[], [], 1, 1⟩ : Db).articles) :=
  c2_lock_released_no_partial_article envA (str "Mercury") none none
    ⟨[], [], 1, 1⟩ (by decide) (by decide)

/-- C3: on a topic with no matching article (by title, hint slug or derived
slug), when today's creation count has reached `DAILY_ARTICLE_LIMIT` the
call fails with `DailyArticleLimitExceeded` leaving the database untouched,
whatever the generator does (no lock taken, no generation attempted); when
the count is below the limit and generation succeeds, a new article is
created, raising the day's count by one — so the limit-th creation of the
day succeeds and the next same-day call trips the quota. -/
theorem c3_daily_quota_enforced (env : ServiceEnv) (topic : List Char)
    (summaryHint slugHint : Option (List Char)) (db : Db)
    (htop : ¬ pyStrip topic = [])
    (h1 : lookupTitle (pyStrip topic) db.articles = none)
    (h2 : lookupSlug (hintSlug env.nfkc env.nfkd slugHint) db.articles = none)
    (h3 : lookupSlug (baseSlugOf env (pyStrip topic) slugHint) db.articles = none) :
    (env.dailyLimit ≤ countToday env.today db.articles →
      ∀ g, getOrCreateArticle { env with gen := g } topic summaryHint slugHint db =
        (Except.error ServiceError.dailyLimitExceeded, db)) ∧
    (countToday env.today db.articles < env.dailyLimit →
      (∀ r ∈ db.locks, r.slug ≠ baseSlugOf env (pyStrip topic) slugHint) →
      (∀ s os bs, ∃ c, env.gen s os bs = Except.ok c) →
      ∃ a : ArticleRow,
        (getOrCreateArticle env topic summaryHint slugHint db).1 =
          Except.ok (a, true) ∧
        (getOrCreateArticle env topic summaryHint slugHint db).2.articles =
          db.articles ++ [a] ∧
        countToday env.today
            (getOrCreateArticle env topic summaryHint slugHint db).2.articles =
          countToday env.today db.articles + 1) := by
  have h2' : (if hintSlug env.nfkc env.nfkd slugHint ≠ [] then
      lookupAndRefresh (pyStrip (summaryHint.getD []))
        (hintSlug env.nfkc env.nfkd slugHint) db
    else none) = none := by
    split
    · exact lookupAndRefresh_none h2
    · rfl
  constructor
  · intro h4 g
    exact getOrCreate_eq_quota { env with gen := g } topic summaryHint slugHint db
      htop h1 h2' (lookupAndRefresh_none h3) h4
  · intro h4 hnolock hgen
    rw [getOrCreate_eq_locked env topic summaryHint slugHint db htop h1 h2'
      (lookupAndRefresh_none h3) (by omega)]
    obtain ⟨a, e1, e2, e3⟩ := locked_creates env (pyStrip topic)
      (pyStrip (summaryHint.getD [])) (baseSlugOf env (pyStrip topic) slugHint) db
      h3 hnolock hgen
    refine ⟨a, e1, e2, ?_⟩
    rw [e2, countToday_snoc e3]

/-- Witness for C3 on an empty database with a daily limit of one and an
always-succeeding generator. -/
theorem c3_daily_quota_enforced_witness :
    (envB.dailyLimit ≤ countToday envB.today (⟨[], [], 1, 1⟩ : Db).articles →
      ∀ g, getOrCreateArticle { envB with gen := g } (str "Mercury") none none
          ⟨[], [], 1, 1⟩ =
        (Except.error ServiceError.dailyLimitExceeded, ⟨[], [], 1, 1⟩)) ∧
    (countToday envB.today (⟨[], [], 1, 1⟩ : Db).articles < envB.dailyLimit →
      (∀ r ∈ (⟨[], [], 1, 1⟩ : Db).locks,
        r.slug ≠ baseSlugOf envB (pyStrip (str "Mercury")) none) →
      (∀ s os bs, ∃ c, envB.gen s os bs = Except.ok c) →
      ∃ a : ArticleRow,
        (getOrCreateArticle envB (str "Mercury") none none ⟨[], [], 1, 1⟩).1 =
          Except.ok (a, true) ∧
        (getOrCreateArticle envB (str "Mercury") none none ⟨[], [], 1, 1⟩).2.articles =
          (⟨[], [], 1, 1⟩ : Db).articles ++ [a] ∧
        countToday envB.today
            (getOrCreateArticle envB (str "Mercury") none none ⟨[], [], 1, 1⟩).2.articles =
          countToday envB.today (⟨[], [], 1, 1⟩ : Db).articles + 1) :=
  c3_daily_quota_enforced envB (str "Mercury") none none ⟨[], [], 1, 1⟩
    (by decide) (by decide) (by decide) (by decide)

theorem refreshResult_frame {cs : List Char} {ex a : ArticleRow} {db : Db}
    (h : (refreshResult cs ex db).1 = Except.ok (a, false)) :
    a.pk = ex.pk ∧ a.title = ex.title ∧ a.slug = ex.slug ∧
    a.content = ex.content ∧ a.outgoing = ex.outgoing ∧
    ((a = ex ∧ (refreshResult cs ex db).2 = db) ∨
      (cs ≠ [] ∧ ex.summary ≠ cs ∧ a = { ex with summary := cs } ∧
        (refreshResult cs ex db).2 =
          { db with articles := db.articles.map (fun b =>
              if b.pk = ex.pk then { ex with summary := cs } else b) })) := by
  rw [refreshResult_fst] at h
  have ha : a = (refreshSummary cs ex db).1 := by
    have h' := Except.ok.inj h
    rw [Prod.mk.injEq] at h'
    exact h'.1.symm
  rw [refreshResult_snd]
  by_cases hc : cs ≠ [] ∧ ex.summary ≠ cs
  · have e1 : (refreshSummary cs ex db).1 = { ex with summary := cs } := by
      unfold refreshSummary
      rw [if_pos hc]
    have e2 : (refreshSummary cs ex db).2 =
        { db with articles := db.articles.map (fun b =>
          if b.pk = ex.pk then { ex with summary := cs } else b) } := by
      unfold refreshSummary
      rw [if_pos hc]
    subst ha
    rw [e1, e2]
    exact ⟨rfl, rfl, rfl, rfl, rfl, Or.inr ⟨hc.1, hc.2, rfl, rfl⟩⟩
  · have e1 : (refreshSummary cs ex db).1 = ex := by
      unfold refreshSummary
      rw [if_neg hc]
    have e2 : (refreshSummary cs ex db).2 = db := by
      unfold refreshSummary
      rw [if_neg hc]
    subst ha
    rw [e1, e2]
    exact ⟨rfl, rfl, rfl, rfl, rfl, Or.inl ⟨rfl, rfl⟩⟩

/-- C10: whenever `get_or_create_article` returns `(article, False)`, the
returned article corresponds to a stored row; its id, title, slug, content
and outgoing links equal that row's, and either nothing changed at all, or
only the summary snippet was overwritten — exactly when a non-empty summary
hint differing from the stored snippet was supplied.  No generation occurs:
the outcome is the same for every generator. -/
theorem c10_existing_article_frame (env : ServiceEnv) (topic : List Char)
    (summaryHint slugHint : Option (List Char)) (db : Db) (a : ArticleRow)
    (h : (getOrCreateArticle env topic summaryHint slugHint db).1 =
      Except.ok (a, false)) :
    ∃ orig ∈ db.articles,
      a.pk = orig.pk ∧ a.title = orig.title ∧ a.slug = orig.slug ∧
      a.content = orig.content ∧ a.outgoing = orig.outgoing ∧
      ((a = orig ∧ (getOrCreateArticle env topic summaryHint slugHint db).2 = db) ∨
        (pyStrip (summaryHint.getD []) ≠ [] ∧
          orig.summary ≠ pyStrip (summaryHint.getD []) ∧
          a = { orig with summary := pyStrip (summaryHint.getD []) } ∧
          (getOrCreateArticle env topic summaryHint slugHint db).2 =
            { db with articles := db.articles.map (fun b =>
                if b.pk = orig.pk then
                  { orig with summary := pyStrip (summaryHint.getD []) }
                else b) })) ∧
      (∀ g, getOrCreateArticle { env with gen := g } topic summaryHint slugHint db =
        getOrCreateArticle env topic summaryHint slugHint db) := by
  by_cases h0 : pyStrip topic = []
  · rw [getOrCreate_eq_blank env topic summaryHint slugHint db h0] at h
    exact absurd h (by simp)
  · cases h1 : lookupTitle (pyStrip topic) db.articles with
    | some ex =>
      rw [getOrCreate_eq_title env topic summaryHint slugHint db h0 h1] at h
      obtain ⟨f1, f2, f3, f4, f5, f6⟩ := refreshResult_frame h
      refine ⟨ex, lookupTitle_mem h1, f1, f2, f3, f4, f5, ?_, ?_⟩
      · rw [getOrCreate_eq_title env topic summaryHint slugHint db h0 h1]
        exact f6
      · intro g
        rw [getOrCreate_eq_title { env with gen := g } topic summaryHint slugHint db h0 h1,
          getOrCreate_eq_title env topic summaryHint slugHint db h0 h1]
    | none =>
      cases h2 : (if hintSlug env.nfkc env.nfkd slugHint ≠ [] then
          lookupAndRefresh (pyStrip (summaryHint.getD []))
            (hintSlug env.nfkc env.nfkd slugHint) db
        else none) with
      | some r =>
        have h2' : lookupAndRefresh (pyStrip (summaryHint.getD []))
            (hintSlug env.nfkc env.nfkd slugHint) db = some r := by
          split at h2
          · exact h2
          · exact Option.noConfusion h2
        obtain ⟨ex, hlk, rfl⟩ := lookupAndRefresh_some h2'
        rw [getOrCreate_eq_hint env topic summaryHint slugHint db h0 h1 h2] at h
        obtain ⟨f1, f2, f3, f4, f5, f6⟩ := refreshResult_frame h
        refine ⟨ex, (lookupSlug_some hlk).1, f1, f2, f3, f4, f5, ?_, ?_⟩
        · rw [getOrCreate_eq_hint env topic summaryHint slugHint db h0 h1 h2]
          exact f6
        · intro g
          rw [getOrCreate_eq_hint { env with gen := g } topic summaryHint slugHint db h0 h1 h2,
            getOrCreate_eq_hint env topic summaryHint slugHint db h0 h1 h2]
      | none =>
        cases h3 : lookupAndRefresh (pyStrip (summaryHint.getD []))
            (baseSlugOf env (pyStrip topic) slugHint) db with
        | some r =>
          obtain ⟨ex, hlk, rfl⟩ := lookupAndRefresh_some h3
          rw [getOrCreate_eq_base env topic summaryHint slugHint db h0 h1 h2 h3] at h
          obtain ⟨f1, f2, f3, f4, f5, f6⟩ := refreshResult_frame h
          refine ⟨ex, (lookupSlug_some hlk).1, f1, f2, f3, f4, f5, ?_, ?_⟩
          · rw [getOrCreate_eq_base env topic summaryHint slugHint db h0 h1 h2 h3]
            exact f6
          · intro g
            rw [getOrCreate_eq_base { env with gen := g } topic summaryHint slugHint db h0 h1 h2 h3,
              getOrCreate_eq_base env topic summaryHint slugHint db h0 h1 h2 h3]
        | none =>
          by_cases h4 : env.dailyLimit ≤ countToday env.today db.articles
          · rw [getOrCreate_eq_quota env topic summaryHint slugHint db h0 h1 h2 h3 h4] at h
            exact absurd h (by simp)
          · exfalso
            rw [getOrCreate_eq_locked env topic summaryHint slugHint db h0 h1 h2 h3 h4] at h
            exact locked_not_created (lookupSlug_of_refresh_none h3) h

/-- Witness for C10: looking up the stored "Sun" article by title with a
fresh summary hint refreshes only the snippet. -/
theorem c10_existing_article_frame_witness :
    ∃ orig ∈ dbOneArticle.articles,
      (⟨1, str "Sun", str "sun", str "About the sun.", str "Fresh", [], 7⟩
        : ArticleRow).pk = orig.pk ∧
      (⟨1, str "Sun", str "sun", str "About the sun.", str "Fresh", [], 7⟩
        : ArticleRow).title = orig.title ∧
      (⟨1, str "Sun", str "sun", str "About the sun.", str "Fresh", [], 7⟩
        : ArticleRow).slug = orig.slug ∧
      (⟨1, str "Sun", str "sun", str "About the sun.", str "Fresh", [], 7⟩
        : ArticleRow).content = orig.content ∧
      (⟨1, str "Sun", str "sun", str "About the sun.", str "Fresh", [], 7⟩
        : ArticleRow).outgoing = orig.outgoing ∧
      (((⟨1, str "Sun", str "sun", str "About the sun.", str "Fresh", [], 7⟩
          : ArticleRow) = orig ∧
        (getOrCreateArticle envA (str "sun") (some (str "Fresh")) none
          dbOneArticle).2 = dbOneArticle) ∨
        (pyStrip ((some (str "Fresh")).getD []) ≠ [] ∧
          orig.summary ≠ pyStrip ((some (str "Fresh")).getD []) ∧
          (⟨1, str "Sun", str "sun", str "About the sun.", str "Fresh", [], 7⟩
            : ArticleRow) =
            { orig with summary := pyStrip ((some (str "Fresh")).getD []) } ∧
          (getOrCreateArticle envA (str "sun") (some (str "Fresh")) none
            dbOneArticle).2 =
            { dbOneArticle with articles := dbOneArticle.articles.map (fun b =>
                if b.pk = orig.pk then
                  { orig with summary := pyStrip ((some (str "Fresh")).getD []) }
                else b) })) ∧
      (∀ g, getOrCreateArticle { envA with gen := g } (str "sun")
          (some (str "Fresh")) none dbOneArticle =
        getOrCreateArticle envA (str "sun") (some (str "Fresh")) none dbOneArticle) :=
  c10_existing_article_frame envA (str "sun") (some (str "Fresh")) none dbOneArticle
    ⟨1, str "Sun", str "sun", str "About the sun.", str "Fresh", [], 7⟩ (by rfl)

/-! ### C4: search results -/

theorem searchFinalSlug_ne_nil {nfkc nfkd : List Char → List Char}
    {arts : List ArticleRow} {used : List (List Char)} {item : RawItem}
    (harts : ∀ a ∈ arts, a.slug ≠ [])
    (hbase : searchSlugBase nfkc nfkd item ≠ []) :
    searchFinalSlug nfkc nfkd arts used item ≠ [] := by
  unfold searchFinalSlug
  split
  · split
    next art hart => exact harts art (List.mem_of_find?_eq_some hart)
    next => exact chooseSlugAux_ne_nil hbase _ _
  · exact chooseSlugAux_ne_nil hbase _ _

theorem searchEntryOf_fields (nfkc nfkd : List Char → List Char)
    (arts : List ArticleRow) (used : List (List Char)) (item : RawItem) :
    (searchEntryOf nfkc nfkd arts used item).title = pyStrip item.title ∧
    (searchEntryOf nfkc nfkd arts used item).snippet =
      renderSnippetMarkdown (pyStrip item.snippet) ∧
    (searchEntryOf nfkc nfkd arts used item).slug =
      searchFinalSlug nfkc nfkd arts used item := by
  refine ⟨?_, ?_, ?_⟩
  · unfold searchEntryOf
    rfl
  · unfold searchEntryOf
    rfl
  · unfold searchEntryOf
    rfl

theorem search_entries_prop (nfkc nfkd : List Char → List Char)
    (arts : List ArticleRow) (harts : ∀ a ∈ arts, a.slug ≠ [])
    (raw : List RawItem) :
    ∀ (st : List SearchEntry × List (List Char)),
    (∀ e ∈ st.1, e.title ≠ [] ∧ e.slug ≠ [] ∧
      ∃ s, s ≠ [] ∧ e.snippet = renderSnippetMarkdown s) →
    ∀ e ∈ (raw.foldl (searchStep nfkc nfkd arts) st).1,
      e.title ≠ [] ∧ e.slug ≠ [] ∧
        ∃ s, s ≠ [] ∧ e.snippet = renderSnippetMarkdown s := by
  induction raw with
  | nil => exact fun st hst => hst
  | cons item rest ih =>
    intro st hst
    rw [List.foldl_cons]
    apply ih
    unfold searchStep
    split
    · exact hst
    next h1 =>
      split
      · exact hst
      next h2 =>
        split
        · exact hst
        next h3 =>
          intro e he
          have he' : e ∈ st.1 ++ [searchEntryOf nfkc nfkd arts st.2 item] := he
          rcases List.mem_append.mp he' with hm | hm
          · exact hst e hm
          · obtain rfl := List.mem_singleton.mp hm
            rw [not_or] at h2
            obtain ⟨ft, fs, fl⟩ := searchEntryOf_fields nfkc nfkd arts st.2 item
            rw [ft, fs, fl]
            exact ⟨h2.1, searchFinalSlug_ne_nil harts h3,
              pyStrip item.snippet, h2.2, rfl⟩

/-- C4 counterexample: a tool payload whose `results` array holds a single
valid item is parsed and returned as a one-element list — `parsed[:5]` with
one parsed entry — so a normal return need not contain three to six
results. -/
theorem c4_single_result_payload :
    generate_search_results id id []
        [⟨true, str "Sun", str "A star.", str "sun", none⟩] =
      Except.ok [⟨str "Sun", str "A star.", str "sun", none, none,
        str "/entries/sun/?title=Sun&snippet=A+star."⟩] ∧
    ∀ l, generate_search_results id id []
        [⟨true, str "Sun", str "A star.", str "sun", none⟩] = Except.ok l →
      ¬ (3 ≤ l.length ∧ l.length ≤ 6) := by
  have h : generate_search_results id id []
      [⟨true, str "Sun", str "A star.", str "sun", none⟩] =
    Except.ok [⟨str "Sun", str "A star.", str "sun", none, none,
      str "/entries/sun/?title=Sun&snippet=A+star."⟩] := by rfl
  refine ⟨h, ?_⟩
  intro l hl
  rw [h] at hl
  obtain rfl := Except.ok.inj hl
  decide

/-- C4 (amended): whenever `generate_search_results` returns normally, the
returned list contains between one and five results (invalid payload items
are skipped, and `return parsed[:5]` caps the list at five, so fewer than
three and never six may come back); each result carries a non-empty title,
a non-empty slug, and an HTML snippet rendered from a non-empty raw
snippet.  Stored slugs are assumed non-empty, as `Article.save`
guarantees. -/
theorem c4_search_results_amended (nfkc nfkd : List Char → List Char)
    (arts : List ArticleRow) (raw : List RawItem) (l : List SearchEntry)
    (harts : ∀ a ∈ arts, a.slug ≠ [])
    (h : generate_search_results nfkc nfkd arts raw = Except.ok l) :
    1 ≤ l.length ∧ l.length ≤ 5 ∧
    ∀ e ∈ l, e.title ≠ [] ∧ e.slug ≠ [] ∧
      ∃ s, s ≠ [] ∧ e.snippet = renderSnippetMarkdown s := by
  unfold generate_search_results at h
  split at h
  · exact Except.noConfusion h
  next hne =>
    obtain rfl := Except.ok.inj h
    refine ⟨?_, ?_, ?_⟩
    · rw [List.length_take]
      have hlen : (raw.foldl (searchStep nfkc nfkd arts) ([], [])).1.length ≠ 0 := by
        intro h0
        exact hne (List.length_eq_zero.mp h0)
      omega
    · rw [List.length_take]
      omega
    · intro e he
      have he' := List.mem_of_mem_take he
      exact search_entries_prop nfkc nfkd arts harts raw ([], [])
        (fun e h0 => absurd h0 (List.not_mem_nil e)) e he'

/-- Witness for C4 (amended) on the single-item payload. -/
theorem c4_search_results_amended_witness :
    1 ≤ ([(⟨str "Sun", str "A star.", str "sun", none, none,
        str "/entries/sun/?title=Sun&snippet=A+star."⟩ : SearchEntry)]).length ∧
    ([(⟨str "Sun", str "A star.", str "sun", none, none,
        str "/entries/sun/?title=Sun&snippet=A+star."⟩ : SearchEntry)]).length ≤ 5 ∧
    ∀ e ∈ [(⟨str "Sun", str "A star.", str "sun", none, none,
        str "/entries/sun/?title=Sun&snippet=A+star."⟩ : SearchEntry)],
      e.title ≠ [] ∧ e.slug ≠ [] ∧
        ∃ s, s ≠ [] ∧ e.snippet = renderSnippetMarkdown s :=
  c4_search_results_amended id id []
    [⟨true, str "Sun", str "A star.", str "sun", none⟩]
    [⟨str "Sun", str "A star.", str "sun", none, none,
      str "/entries/sun/?title=Sun&snippet=A+star."⟩]
    (fun a ha => absurd ha (List.not_mem_nil a)) (by rfl)

/-! ### C9: backlink briefings -/

theorem collectAnchor_inv {maxItems : Nat} {Q : ArticleRow → Prop} {art : ArticleRow}
    {excerpt : List Char} {st : CollectSt} {anchorRaw : List Char}
    (hart : Q art) (h : CollectInv maxItems Q st) :
    CollectInv maxItems Q (collectAnchor maxItems art excerpt st anchorRaw) := by
  obtain ⟨h1, h2, h3⟩ := h
  unfold collectAnchor
  split
  · exact ⟨h1, h2, h3⟩
  next hdone =>
    split
    · exact ⟨h1, h2, h3⟩
    · split
      · exact ⟨h1, h2, h3⟩
      · have hdf : st.done = false := by simpa using hdone
        have hlt : st.briefings.length < maxItems := h2 hdf
        refine ⟨?_, ?_, ?_⟩
        · show (st.briefings ++ [_]).length ≤ maxItems
          simp only [List.length_append, List.length_singleton]
          omega
        · intro hdone'
          have hd2 : decide (maxItems ≤ st.briefings.length + 1) = false := hdone'
          have := of_decide_eq_false hd2
          show (st.briefings ++ [_]).length < maxItems
          simp only [List.length_append, List.length_singleton]
          omega
        · intro b hb
          have hb' : b ∈ st.briefings ++
              [⟨art.title, stripMarkdownExcerpt excerpt, pyStrip anchorRaw⟩] := hb
          rcases List.mem_append.mp hb' with hm | hm
          · exact h3 b hm
          · obtain rfl := List.mem_singleton.mp hm
            exact ⟨art, hart, rfl⟩

theorem foldl_anchors_inv {maxItems : Nat} {Q : ArticleRow → Prop} {art : ArticleRow}
    {excerpt : List Char} (hart : Q art) :
    ∀ (anchors : List (List Char)) (st : CollectSt), CollectInv maxItems Q st →
      CollectInv maxItems Q
        (anchors.foldl (collectAnchor maxItems art excerpt) st) := by
  intro anchors
  induction anchors with
  | nil => exact fun st h => h
  | cons a rest ih =>
    intro st h
    rw [List.foldl_cons]
    exact ih _ (collectAnchor_inv hart h)

theorem collectLine_inv {nfc : List Char → List Char} {comb : Char → Bool}
    {slug : List Char} {art : ArticleRow} {lines : List (List Char)}
    {lb la maxItems : Nat} {Q : ArticleRow → Prop} (hart : Q art)
    {st : CollectSt} {idx : Nat} (h : CollectInv maxItems Q st) :
    CollectInv maxItems Q
      (collectLine nfc comb slug art lines lb la maxItems st idx) := by
  unfold collectLine
  split
  · exact h
  · split
    · exact h
    · split
      · exact h
      · exact foldl_anchors_inv hart _ _ h

theorem collectArticle_inv {nfc : List Char → List Char} {comb : Char → Bool}
    {slug : List Char} {lb la maxItems : Nat} {Q : ArticleRow → Prop}
    {art : ArticleRow} (hart : Q art) {st : CollectSt}
    (h : CollectInv maxItems Q st) :
    CollectInv maxItems Q
      (collectArticle nfc comb slug lb la maxItems st art) := by
  unfold collectArticle
  generalize List.range (splitLines art.content).length = idxs
  induction idxs generalizing st with
  | nil => exact h
  | cons i rest ih =>
    rw [List.foldl_cons]
    exact ih (collectLine_inv hart h)

theorem foldl_articles_inv (nfc : List Char → List Char) (comb : Char → Bool)
    (slug : List Char) (lb la : Nat) {maxItems : Nat} {Q : ArticleRow → Prop} :
    ∀ (arts : List ArticleRow), (∀ a ∈ arts, Q a) →
    ∀ st : CollectSt, CollectInv maxItems Q st →
    CollectInv maxItems Q
      (arts.foldl (collectArticle nfc comb slug lb la maxItems) st) := by
  intro arts
  induction arts with
  | nil => exact fun _ st h => h
  | cons a rest ih =>
    intro hQ st h
    rw [List.foldl_cons]
    exact ih (fun x hx => hQ x (List.mem_cons_of_mem a hx)) _
      (collectArticle_inv (hQ a (List.mem_cons_self a rest)) h)

theorem mem_insertSorted {a x : ArticleRow} :
    ∀ {l : List ArticleRow}, x ∈ insertSorted a l ↔ x = a ∨ x ∈ l := by
  intro l
  induction l with
  | nil => simp [insertSorted]
  | cons b rest ih =>
    unfold insertSorted
    split
    · simp [List.mem_cons]
    · rw [List.mem_cons, ih, List.mem_cons]
      tauto

theorem mem_sortByTitle {x : ArticleRow} :
    ∀ {l : List ArticleRow}, x ∈ sortByTitle l ↔ x ∈ l := by
  intro l
  induction l with
  | nil => simp [sortByTitle]
  | cons a rest ih =>
    unfold sortByTitle
    rw [mem_insertSorted, ih, List.mem_cons]

/-- C9: the briefing collector returns at most `max_items` briefings; every
briefing's title belongs to an article whose denormalized outgoing links
contain the target slug and whose own slug differs from it (articles are
visited in title order, then line order); and on the concrete graph where
Alpha links to Bee (slug `b`) and Bee links to Sea (slug `c`), collecting
for target `b` returns exactly one briefing, holding Alpha's excerpt and
anchor, and none from Sea. -/
theorem c9_backlink_briefings (nfc : List Char → List Char) (comb : Char → Bool)
    (articles : List ArticleRow) (target : List Char) (lb la maxItems : Nat)
    (hmax : 1 ≤ maxItems) :
    (collectIncomingLinkBriefings nfc comb articles target lb la maxItems).length ≤
      maxItems ∧
    (∀ b ∈ collectIncomingLinkBriefings nfc comb articles target lb la maxItems,
      ∃ art ∈ articles, pyStrip target ∈ art.outgoing ∧
        art.slug ≠ pyStrip target ∧ b.title = art.title) ∧
    collectIncomingLinkBriefings id (fun _ => false)
        [⟨1, str "Alpha", str "alpha", str "Alpha links to [Bee](/entries/b) here.",
          str "", [str "b"], 0⟩,
         ⟨2, str "Bee", str "b", str "Bee links to [Sea](/entries/c).",
          str "", [str "c"], 0⟩,
         ⟨3, str "Sea", str "c", str "Sea content.", str "", [], 0⟩]
        (str "b") 2 2 5 =
      [⟨str "Alpha", str "Alpha links to Bee here.", str "Bee"⟩] := by
  have main :
      (collectIncomingLinkBriefings nfc comb articles target lb la maxItems).length ≤
        maxItems ∧
      ∀ b ∈ collectIncomingLinkBriefings nfc comb articles target lb la maxItems,
        ∃ art ∈ articles, pyStrip target ∈ art.outgoing ∧
          art.slug ≠ pyStrip target ∧ b.title = art.title := by
    unfold collectIncomingLinkBriefings
    split
    · exact ⟨Nat.zero_le _, fun b hb => absurd hb (List.not_mem_nil b)⟩
    · have hinv := foldl_articles_inv nfc comb (pyStrip target) lb la
        (Q := fun art => art ∈ articles ∧ pyStrip target ∈ art.outgoing ∧
          art.slug ≠ pyStrip target)
        (sortByTitle (articles.filter (fun a =>
          decide (pyStrip target ∈ a.outgoing ∧ a.slug ≠ pyStrip target))))
        (by
          intro a ha
          rw [mem_sortByTitle] at ha
          have hf := List.mem_filter.mp ha
          exact ⟨hf.1, of_decide_eq_true hf.2⟩)
        ⟨[], [], false⟩
        ⟨Nat.zero_le _, fun _ => hmax, fun b hb => absurd hb (List.not_mem_nil b)⟩
      obtain ⟨k1, k2, k3⟩ := hinv
      refine ⟨k1, ?_⟩
      intro b hb
      obtain ⟨art, ⟨hm, ho, hs⟩, ht⟩ := k3 b hb
      exact ⟨art, hm, ho, hs, ht⟩
  exact ⟨main.1, main.2, by decide⟩

/-- Witness for C9 at the default parameters on the concrete three-article
graph. -/
theorem c9_backlink_briefings_witness :
    ((1 : Nat) ≤ 5) ∧
    ((collectIncomingLinkBriefings id (fun _ => false)
        [⟨1, str "Alpha", str "alpha", str "Alpha links to [Bee](/entries/b) here.",
          str "", [str "b"], 0⟩,
         ⟨2, str "Bee", str "b", str "Bee links to [Sea](/entries/c).",
          str "", [str "c"], 0⟩,
         ⟨3, str "Sea", str "c", str "Sea content.", str "", [], 0⟩]
        (str "b") 2 2 5).length ≤ 5) :=
  ⟨by decide,
    (c9_backlink_briefings id (fun _ => false)
      [⟨1, str "Alpha", str "alpha", str "Alpha links to [Bee](/entries/b) here.",
        str "", [str "b"], 0⟩,
       ⟨2, str "Bee", str "b", str "Bee links to [Sea](/entries/c).",
        str "", [str "c"], 0⟩,
       ⟨3, str "Sea", str "c", str "Sea content.", str "", [], 0⟩]
      (str "b") 2 2 5 (by decide)).1⟩

end EncyclopedAI
